import Mathlib

/-!
Verification of the core retrieval subsystem of the sherlock-discord-bot
repository: the LRU+TTL response cache (src/cache.py), the hybrid RRF
retriever (src/rag_service.py), and the ingestion pipeline, namely the
recursive token splitter and the legal-metadata extractor
(scripts/ingest_docs.py).

The Python code is shallowly embedded: pure functions become Lean
functions over `List Char` / `String`, the stateful cache becomes explicit
state passing, and fallible backend calls become `Except`-valued fields of
an environment record.  The cryptographic cache key (sha256 of a formatted
string in the source) is modelled as the structured tuple of the hashed
components, i.e. assuming no hash collisions.  The tiktoken tokenizer is an
external capability in the source; it is modelled by a tokenizer record and
instantiated with a character-level tokenizer (each character one token),
which satisfies the round-trip contract the source relies on.
-/

set_option maxHeartbeats 1000000

namespace Sherlock

/-! ## Response cache (src/cache.py) -/

/-- A chat message as consumed by the cache key derivation
(`MessageLike` protocol: a `user` and a `text` field). -/
structure Msg where
  user : String
  text : String
deriving DecidableEq

/-- `CacheEntry` from src/cache.py: value, creation timestamp, hit count. -/
structure CEntry (V : Type) where
  value : V
  created_at : ℚ
  hits : Nat
deriving DecidableEq

/-- The cache key.  The source hashes the string
`model:temperature:max_tokens:convo` with sha256; we model the key as the
tuple of those components (collision-free stand-in for the digest). -/
abbrev HKey := String × ℚ × Int × String

/-- The message part of the hash preimage: the last (at most) 5 messages,
each rendered `user:text`, joined with a `|` (mirrors `_hash_key`). -/
def convoStr (messages : List Msg) : String :=
  let recent := if messages.length > 5 then messages.drop (messages.length - 5) else messages
  String.intercalate "|" (recent.map (fun m => m.user ++ ":" ++ m.text))

/-- `LRUCache._hash_key`: key derived from messages tail, model,
temperature and max_tokens. -/
def hashKey (messages : List Msg) (model : String) (temperature : ℚ)
    (max_tokens : Int) : HKey :=
  (model, temperature, max_tokens, convoStr messages)

/-- `LRUCache` state: capacity, TTL, ordered entries (head = oldest /
least recently used, tail = most recent), and the stats counters. -/
structure LRU (V : Type) where
  max_size : Nat
  ttl_seconds : Nat
  entries : List (HKey × CEntry V)
  hits : Nat
  misses : Nat
  evictions : Nat
  expirations : Nat
deriving DecidableEq

/-- `LRUCache.get`.  `now` is the value of `time.time()` at the read.
Returns the optional cached value together with the post-read state. -/
def LRU.get {V : Type} (c : LRU V) (now : ℚ) (messages : List Msg) (model : String)
    (temperature : ℚ) (max_tokens : Int) : Option V × LRU V :=
  let key := hashKey messages model temperature max_tokens
  match c.entries.find? (fun kv => decide (kv.1 = key)) with
  | none => (none, { c with misses := c.misses + 1 })
  | some kv =>
    if now - kv.2.created_at > (c.ttl_seconds : ℚ) then
      (none, { c with
        entries := c.entries.filter (fun kv2 => decide (kv2.1 ≠ key)),
        misses := c.misses + 1,
        expirations := c.expirations + 1 })
    else
      (some kv.2.value, { c with
        entries := c.entries.filter (fun kv2 => decide (kv2.1 ≠ key)) ++
          [(key, { kv.2 with hits := kv.2.hits + 1 })],
        hits := c.hits + 1 })

/-- `LRUCache.set`.  On an existing key the entry is replaced wholesale
(fresh `created_at`) and moved to the most-recent end; on a new key the
oldest entry is popped first when at capacity. -/
def LRU.set {V : Type} (c : LRU V) (now : ℚ) (messages : List Msg) (model : String)
    (value : V) (temperature : ℚ) (max_tokens : Int) : LRU V :=
  let key := hashKey messages model temperature max_tokens
  if c.entries.any (fun kv => decide (kv.1 = key)) then
    { c with entries := c.entries.filter (fun kv => decide (kv.1 ≠ key)) ++
        [(key, ⟨value, now, 0⟩)] }
  else
    let c1 :=
      if c.entries.length ≥ c.max_size then
        { c with entries := c.entries.tail, evictions := c.evictions + 1 }
      else c
    { c1 with entries := c1.entries ++ [(key, ⟨value, now, 0⟩)] }

/-! ## Hybrid retriever with RRF fusion (src/rag_service.py) -/

/-- A row fetched from the documents relation: `SELECT id, content`. -/
structure Row where
  id : Nat
  content : String
deriving DecidableEq

/-- A scoring entry of the RRF `scores` dictionary: document id, running
fused score, content.  The list order mirrors Python dict insertion order. -/
structure ScoreEntry where
  id : Nat
  score : ℚ
  content : String
deriving DecidableEq

/-- One iteration of an RRF leg loop: fetch-or-insert the score record for
the row id (new ids are appended, i.e. inserted at the dictionary end) and
add the reciprocal-rank contribution `1 / (k + rank + 1)` with `k = 60`. -/
def addRow (scores : List ScoreEntry) (rank : Nat) (r : Row) : List ScoreEntry :=
  if scores.any (fun e => decide (e.id = r.id)) then
    scores.map (fun e =>
      if e.id = r.id then { e with score := e.score + 1 / (60 + (rank : ℚ) + 1) } else e)
  else
    scores ++ [⟨r.id, 0 + 1 / (60 + (rank : ℚ) + 1), r.content⟩]

/-- `for rank, row in enumerate(rows)` over one leg, starting at `rank`. -/
def processLegGo (scores : List ScoreEntry) (rank : Nat) : List Row → List ScoreEntry
  | [] => scores
  | r :: rs => processLegGo (addRow scores rank r) (rank + 1) rs

/-- Accumulate the reciprocal-rank contributions of one leg. -/
def processLeg (scores : List ScoreEntry) (rows : List Row) : List ScoreEntry :=
  processLegGo scores 0 rows

/-- The full `scores` dictionary after processing the vector rows and then
the keyword rows. -/
def buildScores (vrows krows : List Row) : List ScoreEntry :=
  processLeg (processLeg [] vrows) krows

/-- Stable descending insertion: the new element goes after all elements
with a score greater than or equal to its own (the tie behaviour of the
stable `sorted(..., reverse=True)` in the source). -/
def insertDesc (e : ScoreEntry) : List ScoreEntry → List ScoreEntry
  | [] => [e]
  | x :: xs => if e.score > x.score then e :: x :: xs else x :: insertDesc e xs

/-- Stable sort by fused score, highest first. -/
def sortScoresDesc (l : List ScoreEntry) : List ScoreEntry :=
  l.foldl (fun acc e => insertDesc e acc) []

/-- RRF fusion as in `RAGService.query` lines 199-222: build the score
dictionary from the two ranked legs, sort by fused score descending, and
return the contents of the top `n` documents. -/
def rrfFuse (vrows krows : List Row) (n : Nat) : List String :=
  ((sortScoresDesc (buildScores vrows krows)).take n).map ScoreEntry.content

/-- The reciprocal-rank contribution of one leg to a document id, summed
over every rank at which the id occurs in the leg (starting at `rank`). -/
def legContribGo (id : Nat) (rank : Nat) : List Row → ℚ
  | [] => 0
  | r :: rs =>
    (if r.id = id then 1 / (60 + (rank : ℚ) + 1) else 0) + legContribGo id (rank + 1) rs

/-- Total contribution of a leg to a document id. -/
def legContrib (id : Nat) (rows : List Row) : ℚ := legContribGo id 0 rows

/-- 0-based position of the first row carrying the given id. -/
def posIn (id : Nat) : List Row → Option Nat
  | [] => none
  | r :: rs => if r.id = id then some 0 else (posIn id rs).map (· + 1)

/-- The claim-side contribution formula: `1 / (60 + rank + 1)` where
`rank` is the 0-based position of the id in the leg, or 0 if absent. -/
def legContribIdx (id : Nat) (rows : List Row) : ℚ :=
  match posIn id rows with
  | some i => 1 / (60 + (i : ℚ) + 1)
  | none => 0

/-- The document ids present in a scores dictionary. -/
def idsOf (scores : List ScoreEntry) : List Nat := scores.map ScoreEntry.id

/-- Python `key.replace("_", "").isalnum()`: after removing underscores
the key must be nonempty and all-alphanumeric.  Non-ASCII characters are
treated as alphanumeric (approximating unicode `str.isalnum`). -/
def pyAlnumChar (c : Char) : Bool := c.isAlphanum || decide (c.toNat ≥ 128)

/-- The metadata-filter key sanitization predicate of `RAGService.query`. -/
def isCleanKey (k : String) : Bool :=
  let r := k.data.filter (fun c => decide (c ≠ '_'))
  !r.isEmpty && r.all pyAlnumChar

/-- A single quote character (used when interpolating metadata keys into
the generated SQL filter clause). -/
def sq : String := String.singleton (Char.ofNat 39)

/-- One generated filter condition: exact string equality on a JSON-path
metadata accessor, with a positional parameter. -/
def filterCond (k : String) (idx : Nat) : String :=
  "metadata->>" ++ sq ++ k ++ sq ++ " = $" ++ toString idx

/-- The filter loop of `RAGService.query` (lines 150-167): invalid keys are
skipped, clean keys produce a condition numbered from `$3` upward together
with the stringified value. -/
def buildFilterGo : List (String × String) → Nat → List String × List String
  | [], _ => ([], [])
  | (k, v) :: rest, idx =>
    if isCleanKey k then
      let (cs, ps) := buildFilterGo rest (idx + 1)
      (filterCond k idx :: cs, v :: ps)
    else
      buildFilterGo rest idx

/-- The complete filter clause and parameter list built from
`filter_metadata`. -/
def buildFilter (fm : List (String × String)) : String × List String :=
  let (clauses, params) := buildFilterGo fm 3
  (if clauses.isEmpty then "" else "AND " ++ String.intercalate " AND " clauses, params)

/-- Spec-side clause shape, written from the spec words: all retained
conditions joined with AND, parameters numbered from `$3` in order. -/
def specFilterClause (retained : List (String × String)) : String :=
  if retained.isEmpty then ""
  else
    "AND " ++ String.intercalate " AND "
      ((List.range retained.length).zip retained |>.map
        (fun p => filterCond p.2.1 (3 + p.1)))

/-- The allow-list of full-text search language profiles. -/
def allowedLanguages : List String :=
  ["portuguese", "english", "spanish", "french", "german", "italian",
   "dutch", "russian", "simple"]

/-- A parameter passed to `conn.fetch`. -/
inductive SqlArg
  | str (s : String)
  | int (n : Int)
deriving DecidableEq

/-- The vector-leg SQL text (whitespace-normalized f-string of the
source). -/
def vectorSql (fc : String) : String :=
  "SELECT id, content FROM documents WHERE 1=1 " ++ fc ++
    " ORDER BY embedding <=> $1::vector LIMIT $2"

/-- The keyword-leg SQL text. -/
def keywordSql (lang fc : String) : String :=
  "SELECT id, content FROM documents WHERE content_search @@ websearch_to_tsquery(" ++
    sq ++ lang ++ sq ++ ", $1) " ++ fc ++
    " ORDER BY ts_rank(content_search, websearch_to_tsquery(" ++ sq ++ lang ++ sq ++
    ", $1)) DESC LIMIT $2"

/-- The external world of `RAGService`: embedding gateway, database
connection and statement execution.  Exceptions raised by a collaborator
are `Except.error` results. -/
structure RagEnv where
  clientConfigured : Bool
  getEmbedding : Option (List ℚ)
  getEmbeddings : List String → Except String (List (List ℚ))
  connectResult : Except String Unit
  fetch : String → List SqlArg → Except String (List Row)
  executeInsert : List (String × String × String) → Except String Unit
  textSearchLang : String
  dumps : List (String × String) → Except String String
  dumpsDefault : List (String × String) → Except String String

/-- The body of the `try` block of `RAGService.query`. -/
def queryBody (env : RagEnv) (query_text : String) (n_results : Nat)
    (fm : List (String × String)) : Except String (List String) :=
  match env.getEmbedding with
  | none => Except.ok []
  | some emb =>
    if emb.isEmpty then Except.ok []
    else
      let embedding_str := toString emb
      match env.connectResult with
      | Except.error e => Except.error e
      | Except.ok _ =>
        let lang0 := env.textSearchLang.toLower
        let lang := if lang0 ∈ allowedLanguages then lang0 else "portuguese"
        let (fc, fp) := buildFilter fm
        let vargs := [SqlArg.str embedding_str, SqlArg.int (n_results * 2)] ++
          fp.map SqlArg.str
        match env.fetch (vectorSql fc) vargs with
        | Except.error e => Except.error e
        | Except.ok vrows =>
          let kargs := [SqlArg.str query_text, SqlArg.int (n_results * 2)] ++
            fp.map SqlArg.str
          match env.fetch (keywordSql lang fc) kargs with
          | Except.error e => Except.error e
          | Except.ok krows => Except.ok (rrfFuse vrows krows n_results)

/-- `RAGService.query`: the guard on the embedding client, the `try` body,
and the catch-all handler that degrades to an empty list.  The result is an
`Except` so that "never raises" is expressible: the method never returns
`Except.error`. -/
def ragQuery (env : RagEnv) (query_text : String) (n_results : Nat)
    (fm : List (String × String)) : Except String (List String) :=
  if !env.clientConfigured then Except.ok []
  else
    match queryBody env query_text n_results fm with
    | Except.ok r => Except.ok r
    | Except.error _ => Except.ok []

/-- Record serialization of `add_documents`: `json.dumps(meta)` with the
`default=str` fallback on `TypeError`/`ValueError`; the fallback itself may
still raise, which propagates to the outer handler. -/
def mkRecord (env : RagEnv) (t : String × (List (String × String) × List ℚ)) :
    Except String (String × String × String) :=
  match env.dumps t.2.1 with
  | Except.ok mj => Except.ok (t.1, mj, toString t.2.2)
  | Except.error _ =>
    match env.dumpsDefault t.2.1 with
    | Except.ok mj => Except.ok (t.1, mj, toString t.2.2)
    | Except.error e => Except.error e

/-- The body of the `try` block of `RAGService.add_documents`. -/
def addDocumentsBody (env : RagEnv) (documents : List String)
    (metadatas : List (List (String × String))) : Except String Bool :=
  match env.connectResult with
  | Except.error e => Except.error e
  | Except.ok _ =>
    match env.getEmbeddings documents with
    | Except.error _ => Except.ok false
    | Except.ok embeddings =>
      if embeddings.length ≠ documents.length then Except.ok false
      else
        match (documents.zip (metadatas.zip embeddings)).mapM (mkRecord env) with
        | Except.error e => Except.error e
        | Except.ok records =>
          match env.executeInsert records with
          | Except.error e => Except.error e
          | Except.ok _ => Except.ok true

/-- `RAGService.add_documents`: reports every failure as `false`, never by
raising. -/
def addDocuments (env : RagEnv) (documents : List String)
    (metadatas : List (List (String × String))) : Except String Bool :=
  if !env.clientConfigured then Except.ok false
  else
    match addDocumentsBody env documents metadatas with
    | Except.ok b => Except.ok b
    | Except.error _ => Except.ok false

/-! ## Recursive token splitter (scripts/ingest_docs.py) -/

/-- The external tokenizer capability: `encode`/`decode` as in the
tiktoken interface used by `RecursiveTokenSplitter`. -/
structure Tok where
  encode : List Char → List Nat
  decode : List Nat → List Char

/-- A character-level instantiation of the tokenizer: every character is
one token (code point), decoding is the inverse.  It satisfies the
round-trip contract the splitter relies on. -/
def charTok : Tok :=
  ⟨fun s => s.map Char.toNat, fun l => l.map Char.ofNat⟩

/-- `RecursiveTokenSplitter._length`: token length of a text. -/
def tokLen (tok : Tok) (s : List Char) : Nat := (tok.encode s).length

/-- Python `str.strip()`: drop whitespace from both ends. -/
def pyStrip (s : List Char) : List Char :=
  ((s.dropWhile Char.isWhitespace).reverse.dropWhile Char.isWhitespace).reverse

/-- `not split.strip()`: the piece is empty or whitespace-only. -/
def isBlank (s : List Char) : Bool := (pyStrip s).isEmpty

/-- Python `sep in text` (substring occurrence). -/
def containsSub (sep : List Char) : List Char → Bool
  | [] => sep.isPrefixOf []
  | c :: rest => sep.isPrefixOf (c :: rest) || containsSub sep rest

/-- Leftmost occurrence split: `some (pre, post)` when `sep` occurs, where
`pre` is the text before the first occurrence and `post` the text after
it. -/
def findSplit (sep : List Char) : List Char → Option (List Char × List Char)
  | [] => if sep.isPrefixOf ([] : List Char) then some ([], []) else none
  | c :: rest =>
    if sep.isPrefixOf (c :: rest) then some ([], (c :: rest).drop sep.length)
    else
      match findSplit sep rest with
      | none => none
      | some (pre, post) => some (c :: pre, post)

/-- Python `text.split(sep)` for a nonempty separator, with fuel (a fuel of
`text.length + 1` always suffices since each found occurrence consumes at
least one character). -/
def splitOnSepFuel (sep : List Char) : Nat → List Char → List (List Char)
  | 0, s => [s]
  | fuel + 1, s =>
    match findSplit sep s with
    | none => [s]
    | some (pre, post) => pre :: splitOnSepFuel sep fuel post

/-- Python `text.split(sep)` for a nonempty separator. -/
def splitOnSep (sep s : List Char) : List (List Char) :=
  splitOnSepFuel sep (s.length + 1) s

/-- The token-window loop of `_force_split`: starting indices
`0, step, 2*step, ...`, each window `tokens[i : i + size]`, with fuel
(`tokens.length` suffices when `step ≥ 1`). -/
def forceSplitGo (tok : Tok) (size step : Nat) : Nat → List Nat → List (List Char)
  | _, [] => []
  | 0, _ :: _ => []
  | fuel + 1, t :: ts =>
    tok.decode ((t :: ts).take size) :: forceSplitGo tok size step fuel ((t :: ts).drop step)

/-- `RecursiveTokenSplitter._force_split`: fixed-size token windows
overlapping by `chunk_overlap` tokens. -/
def forceSplit (tok : Tok) (size overlap : Nat) (s : List Char) : List (List Char) :=
  let tokens := tok.encode s
  forceSplitGo tok size (size - overlap) tokens.length tokens

/-- The accumulation loop of `_merge_splits`: `cur` is `current_chunk`
(list of pieces), `curLen` is `current_len` (running token length). -/
def mergeGo (tok : Tok) (size overlap : Nat) :
    List (List Char) → List (List Char) → Nat → List (List Char)
  | [], cur, _ =>
    match cur with
    | [] => []
    | _ :: _ =>
      let doc := pyStrip cur.flatten
      if doc.isEmpty then [] else [doc]
  | s :: rest, cur, curLen =>
    let l := tokLen tok s
    if curLen + l > size then
      match cur with
      | [] => mergeGo tok size overlap rest [s] l
      | _ :: _ =>
        let joined := pyStrip cur.flatten
        if joined.isEmpty then mergeGo tok size overlap rest [s] l
        else
          if 0 < overlap ∧ overlap < joined.length then
            let ov := joined.drop (joined.length - overlap)
            joined :: mergeGo tok size overlap rest [ov, s] (tokLen tok ov + l)
          else
            joined :: mergeGo tok size overlap rest [s] l
    else
      mergeGo tok size overlap rest (cur ++ [s]) (curLen + l)

/-- `RecursiveTokenSplitter._merge_splits`. -/
def mergeSplits (tok : Tok) (size overlap : Nat) (splits : List (List Char)) :
    List (List Char) :=
  mergeGo tok size overlap splits [] 0

/-- The separator-selection loop of `_split_text_recursive`: first
separator that is empty or occurs in the text wins; the remaining (finer)
separators become the recursion list.  When no separator qualifies the
last one is kept with an empty recursion list (the Python default
`separator = separators[-1]`). -/
def pickSep (text : List Char) : List (List Char) → List Char × List (List Char)
  | [] => ([], [])
  | sep :: rest =>
    if sep.isEmpty then ([], [])
    else if containsSub sep text then (sep, rest)
    else
      match rest with
      | [] => (sep, [])
      | _ :: _ => pickSep text rest

/-- `RecursiveTokenSplitter._split_text_recursive`, with fuel bounding the
recursion depth (each recursive call receives a strict suffix of the
separator list, so a fuel equal to the initial list length suffices). -/
def splitTextRecFuel (tok : Tok) (size overlap : Nat) :
    Nat → List (List Char) → List Char → List (List Char)
  | 0, _, _ => []
  | fuel + 1, seps, text =>
    let pick := pickSep text seps
    let separator := pick.1
    let newSeps := pick.2
    let splits := if separator.isEmpty then text.map (fun c => [c])
      else splitOnSep separator text
    let goodSplits := splits.flatMap (fun s =>
      if isBlank s then []
      else
        let s2 := if separator.isEmpty then s else s ++ separator
        if tokLen tok s2 < size then [s2]
        else if !newSeps.isEmpty then splitTextRecFuel tok size overlap fuel newSeps s2
        else forceSplit tok size overlap s2)
    mergeSplits tok size overlap goodSplits

/-- The separator hierarchy of `RecursiveTokenSplitter`. -/
def separators : List (List Char) :=
  [['\n', '\n'], ['\n'], ['.'], [' '], []]

/-- `RecursiveTokenSplitter.split_text`. -/
def splitText (tok : Tok) (size overlap : Nat) (text : List Char) : List (List Char) :=
  splitTextRecFuel tok size overlap separators.length separators text

/-! ## Legal metadata extractor (scripts/ingest_docs.py) -/

/-- Python `str.lower()` restricted to the alphabet the extractor handles:
ASCII letters plus the Portuguese accented letters appearing in legal
filenames. -/
def pyLowerChar (c : Char) : Char :=
  if c = 'Á' then 'á' else if c = 'Â' then 'â' else if c = 'Ã' then 'ã'
  else if c = 'À' then 'à' else if c = 'É' then 'é' else if c = 'Ê' then 'ê'
  else if c = 'Í' then 'í' else if c = 'Ó' then 'ó' else if c = 'Ô' then 'ô'
  else if c = 'Õ' then 'õ' else if c = 'Ú' then 'ú' else if c = 'Ü' then 'ü'
  else if c = 'Ç' then 'ç' else c.toLower

/-- The normalization map of `extract_legal_metadata`: the accent
replacements `ú→u`, `ç→c`, `ã→a`, `õ→o`, and the separators `_`, `-`, `.`
mapped to spaces (all are single-character replacements in the source). -/
def normChar (c : Char) : Char :=
  if c = 'ú' then 'u' else if c = 'ç' then 'c' else if c = 'ã' then 'a'
  else if c = 'õ' then 'o'
  else if c = '_' ∨ c = '-' ∨ c = '.' then ' ' else c

/-- `filename.lower()`. -/
def cleanOf (filename : List Char) : List Char := filename.map pyLowerChar

/-- The normalized name the word-boundary patterns run against. -/
def normOf (filename : List Char) : List Char := (cleanOf filename).map normChar

/-- A regex word character (`\w`): ASCII alphanumeric, underscore, or any
non-ASCII character (approximating unicode `\w`, under which the accented
letters of this domain are word characters). -/
def wordChar (c : Char) : Bool := c.isAlphanum || c = '_' || decide (c.toNat ≥ 128)

/-- A word boundary against the neighbouring character (`none` at the ends
of the string). -/
def bdryOk (oc : Option Char) : Bool :=
  match oc with
  | none => true
  | some c => !wordChar c

/-- Generic leftmost-match scanner: try the position test `p` at every
position, left to right; `p` receives the character before the position
(for the boundary check) and the remaining suffix. -/
def scanFind {α : Type} (p : Option Char → List Char → Option α) :
    Option Char → List Char → Option α
  | prev, [] => p prev []
  | prev, c :: rest =>
    match p prev (c :: rest) with
    | some v => some v
    | none => scanFind p (some c) rest

/-- Match of the word-boundary-anchored literal `w` at the current
position (`\b w \b`). -/
def litAt (w : List Char) (prev : Option Char) (s : List Char) : Option Unit :=
  if bdryOk prev && w.isPrefixOf s && bdryOk (s.drop w.length).head? then
    some () else none

/-- `re.search` of a word-boundary-anchored literal. -/
def searchLit (w : List Char) (s : List Char) : Bool :=
  (scanFind (litAt w) none s).isSome

/-- `re.search` with an optional plural `s` before the closing boundary
(the `\b...s?\b` patterns): a match of either the plural or the singular
literal at some position. -/
def searchLitS (w : List Char) (s : List Char) : Bool :=
  (scanFind (fun prev t =>
    match litAt (w ++ ['s']) prev t with
    | some v => some v
    | none => litAt w prev t) none s).isSome

/-- Match of `\bdecreto\s*lei\b` at the current position: the literal
`decreto`, any run of whitespace, then `lei` and a closing boundary. -/
def decLeiAt (prev : Option Char) (s : List Char) : Option Unit :=
  if bdryOk prev && ("decreto".data.isPrefixOf s) then
    let rest := (s.drop 7).dropWhile Char.isWhitespace
    if ("lei".data.isPrefixOf rest) && bdryOk (rest.drop 3).head? then some ()
    else none
  else none

/-- `re.search` of `\bresolu[cç][aã]o\b`: the four literal expansions of
the character classes. -/
def searchResolucao (s : List Char) : Bool :=
  searchLit "resolucao".data s || searchLit "resoluçao".data s ||
  searchLit "resolucão".data s || searchLit "resolução".data s

/-- The ordered type-detection pass (first match wins). -/
def detectType (nm : List Char) : Option String :=
  if searchLitS "sumula".data nm then some "Súmula"
  else if searchLit "lei complementar".data nm then some "Lei Complementar"
  else if searchLit "lc".data nm then some "Lei Complementar"
  else if (scanFind decLeiAt none nm).isSome then some "Decreto-Lei"
  else if searchLit "dl".data nm then some "Decreto-Lei"
  else if searchLit "decreto".data nm then some "Decreto"
  else if searchLit "dec".data nm then some "Decreto"
  else if searchLitS "portaria".data nm then some "Portaria"
  else if searchResolucao nm then some "Resolução"
  else if searchLitS "lei".data nm then some "Lei"
  else none

/-- The legal-authority vocabulary, in source order. -/
def LEGAL_AUTHORITIES : List String :=
  ["stf", "stj", "tse", "tnu", "tcu", "agu", "tjrj", "tjsp", "tjmg", "tjrf",
   "trf", "trt", "tst", "stm", "anatel", "aneel", "antt", "anvisa"]

/-- ASCII uppercase of an authority code. -/
def upperStr (s : String) : String := String.mk (s.data.map Char.toUpper)

/-- Authority detection: first vocabulary entry (vocabulary order) that
matches as a word-boundary token, uppercased. -/
def detectAuthority (nm : List Char) : Option String :=
  (LEGAL_AUTHORITIES.find? (fun a => searchLit a.data nm)).map upperStr

/-- Numeric value of the four year digits. -/
def yearVal (a b c d : Char) : Nat :=
  (a.toNat - 48) * 1000 + (b.toNat - 48) * 100 + (c.toNat - 48) * 10 + (d.toNat - 48)

/-- Match of `\b(19|20)\d{2}\b` at the current position, returning the
integer year. -/
def yearAt (prev : Option Char) (s : List Char) : Option Nat :=
  match s with
  | a :: b :: c :: d :: rest =>
    if bdryOk prev && ((a = '1' && b = '9') || (a = '2' && b = '0')) &&
        c.isDigit && d.isDigit && bdryOk rest.head? then
      some (yearVal a b c d)
    else none
  | _ => none

/-- Year detection: leftmost `\b(19|20)\d{2}\b` in the lowercased
filename. -/
def findYear (s : List Char) : Option Nat := scanFind yearAt none s

/-- The number-keyword alternatives of the regex
`(?:n[º°o]|num|numero|lei|dec|decreto|lc|dl|portaria)`, in alternation
order (the character class expanded to its three single characters). -/
def NUMBER_KEYWORDS : List (List Char) :=
  ["nº".data, "n°".data, "no".data, "num".data, "numero".data, "lei".data,
   "dec".data, "decreto".data, "lc".data, "dl".data, "portaria".data]

/-- Try one keyword alternative at the current position: the keyword
literal, then `\s*`, then a maximal nonempty digit run. -/
def tryKwOne (s : List Char) (kw : List Char) : Option (List Char) :=
  if kw.isPrefixOf s then
    let ds := ((s.drop kw.length).dropWhile Char.isWhitespace).takeWhile Char.isDigit
    if ds.isEmpty then none else some ds
  else none

/-- All keyword alternatives at the current position, in order (the
backtracking of the Python alternation). -/
def kwAt (_ : Option Char) (s : List Char) : Option (List Char) :=
  NUMBER_KEYWORDS.findSome? (tryKwOne s)

/-- The keyword-adjacent number search (leftmost match of the keyword
regex over the normalized name): the captured digit group. -/
def kwNumber (s : List Char) : Option (List Char) := scanFind kwAt none s

/-- `re.findall(r"\d+", ...)`: the maximal digit runs, left to right, with
fuel (`s.length` suffices). -/
def digitRunsFuel : Nat → List Char → List (List Char)
  | 0, _ => []
  | _, [] => []
  | fuel + 1, c :: rest =>
    if c.isDigit then
      (c :: rest).takeWhile Char.isDigit ::
        digitRunsFuel fuel ((c :: rest).dropWhile Char.isDigit)
    else digitRunsFuel fuel rest

/-- The maximal digit runs of a string, left to right. -/
def digitRuns (s : List Char) : List (List Char) := digitRunsFuel s.length s

/-- The fallback number scan: first digit run of 1 to 8 digits that does
not equal the decimal rendering of the already-detected year. -/
def fallbackNumber (clean : List Char) (year : Option Nat) : Option (List Char) :=
  (digitRuns clean).find? (fun num =>
    !(match year with
      | some y => decide (num = (Nat.repr y).data)
      | none => false) &&
    decide (1 ≤ num.length) && decide (num.length ≤ 8))

/-- The character immediately before position `i` of the scanned string
(`prev` is the character before the whole string, `none` at the start). -/
def prevAt (prev : Option Char) (s : List Char) (i : Nat) : Option Char :=
  if i = 0 then prev else ((s.drop (i - 1)).head?)

/-- The extracted legal metadata: all fields optional, absence meaning
"not detected". -/
structure LegalMeta where
  type : Option String
  authority : Option String
  year : Option Nat
  number : Option String
deriving DecidableEq

/-- `extract_legal_metadata`: normalization, type, authority, year, and
the guarded number assignment (the fallback number is recorded only with a
keyword match or an already-detected type/authority). -/
def extractLegalMetadata (filename : List Char) : LegalMeta :=
  let cleanName := cleanOf filename
  let normName := normOf filename
  let ty := detectType normName
  let auth := detectAuthority normName
  let yr := findYear cleanName
  let kwM := kwNumber normName
  let candidate :=
    match kwM with
    | some d => some d
    | none => fallbackNumber cleanName yr
  let num :=
    match candidate with
    | some d => if kwM.isSome || ty.isSome || auth.isSome then some (String.mk d) else none
    | none => none
  ⟨ty, auth, yr, num⟩

/-! ## Helper lemmas: cache -/

theorem find?_append_of_none {α : Type} (p : α → Bool) (l1 l2 : List α)
    (h : ∀ x ∈ l1, p x = false) : (l1 ++ l2).find? p = l2.find? p := by
  rw [List.find?_append]
  have : l1.find? p = none := List.find?_eq_none.mpr (by
    intro x hx
    simp [h x hx])
  rw [this]
  rfl

theorem mem_filter_ne_key {V : Type} (l : List (HKey × CEntry V)) (k : HKey) :
    ∀ kv ∈ l.filter (fun kv2 => decide (kv2.1 ≠ k)), kv.1 ≠ k := by
  intro kv hkv
  have := List.of_mem_filter hkv
  simpa using this

/-- After a `set`, the entries are some list without the written key,
followed by the fresh entry for the written key; the prefix consists of
previous entries. -/
theorem set_entries_shape {V : Type} (c : LRU V) (now : ℚ) (messages : List Msg)
    (model : String) (value : V) (temperature : ℚ) (max_tokens : Int) :
    ∃ L, (c.set now messages model value temperature max_tokens).entries =
        L ++ [(hashKey messages model temperature max_tokens, ⟨value, now, 0⟩)] ∧
      (∀ kv ∈ L, kv.1 ≠ hashKey messages model temperature max_tokens) ∧
      (∀ kv ∈ L, kv ∈ c.entries) := by
  unfold LRU.set
  by_cases hmem : c.entries.any
      (fun kv => decide (kv.1 = hashKey messages model temperature max_tokens)) = true
  · refine ⟨c.entries.filter
      (fun kv => decide (kv.1 ≠ hashKey messages model temperature max_tokens)), ?_, ?_, ?_⟩
    · simp [hmem]
    · exact mem_filter_ne_key c.entries _
    · intro kv hkv
      exact List.mem_of_mem_filter hkv
  · have habs : ∀ kv ∈ c.entries,
        kv.1 ≠ hashKey messages model temperature max_tokens := by
      intro kv hkv
      have := List.any_eq_false.mp (Bool.eq_false_iff.mpr hmem) kv hkv
      simpa using this
    by_cases hcap : c.entries.length ≥ c.max_size
    · refine ⟨c.entries.tail, ?_, ?_, ?_⟩
      · simp [hmem, hcap]
      · intro kv hkv
        exact habs kv (List.mem_of_mem_tail hkv)
      · intro kv hkv
        exact List.mem_of_mem_tail hkv
    · refine ⟨c.entries, ?_, habs, fun kv h => h⟩
      simp [hmem, hcap]

/-- `set` does not change capacity, TTL or the hit/miss counters. -/
theorem set_preserves_config {V : Type} (c : LRU V) (now : ℚ) (messages : List Msg)
    (model : String) (value : V) (temperature : ℚ) (max_tokens : Int) :
    (c.set now messages model value temperature max_tokens).max_size = c.max_size ∧
    (c.set now messages model value temperature max_tokens).ttl_seconds = c.ttl_seconds ∧
    (c.set now messages model value temperature max_tokens).hits = c.hits ∧
    (c.set now messages model value temperature max_tokens).misses = c.misses := by
  unfold LRU.set
  by_cases hmem : c.entries.any
      (fun kv => decide (kv.1 = hashKey messages model temperature max_tokens)) = true
  · simp [hmem]
  · by_cases hcap : c.entries.length ≥ c.max_size <;>
      simp [hmem, hcap]

/-- A `get` on a state whose entries end with a fresh entry for the looked
up key (and do not contain the key earlier) at the write timestamp is a
hit on the fresh value. -/
theorem get_fresh_hit {V : Type} (c : LRU V) (now : ℚ) (messages : List Msg)
    (model : String) (temperature : ℚ) (max_tokens : Int) (L : List (HKey × CEntry V))
    (value : V)
    (hshape : c.entries = L ++ [(hashKey messages model temperature max_tokens,
      ⟨value, now, 0⟩)])
    (hL : ∀ kv ∈ L, kv.1 ≠ hashKey messages model temperature max_tokens) :
    (c.get now messages model temperature max_tokens).1 = some value ∧
    (c.get now messages model temperature max_tokens).2.hits = c.hits + 1 := by
  have hfind : c.entries.find?
      (fun kv => decide (kv.1 = hashKey messages model temperature max_tokens)) =
      some (hashKey messages model temperature max_tokens, ⟨value, now, 0⟩) := by
    rw [hshape, find?_append_of_none]
    · simp
    · intro kv hkv
      simp [hL kv hkv]
  have httl : ¬ (now - now > (c.ttl_seconds : ℚ)) := by
    rw [sub_self]
    exact not_lt.mpr (Nat.cast_nonneg _)
  unfold LRU.get
  simp only [hfind, httl]
  exact ⟨rfl, rfl⟩

/-- A `get` whose key occurs nowhere in the entries is a miss that bumps
the miss counter. -/
theorem get_absent_miss {V : Type} (c : LRU V) (now : ℚ) (messages : List Msg)
    (model : String) (temperature : ℚ) (max_tokens : Int)
    (habs : ∀ kv ∈ c.entries, kv.1 ≠ hashKey messages model temperature max_tokens) :
    (c.get now messages model temperature max_tokens).1 = none ∧
    (c.get now messages model temperature max_tokens).2.misses = c.misses + 1 := by
  have hfind : c.entries.find?
      (fun kv => decide (kv.1 = hashKey messages model temperature max_tokens)) = none :=
    List.find?_eq_none.mpr (by
      intro kv hkv
      simp [habs kv hkv])
  unfold LRU.get
  simp only [hfind]
  exact ⟨trivial, trivial⟩

/-! ## Claim theorems: cache -/

/-- C7: setting and then immediately getting the same
(messages, model, temperature, max_tokens) tuple returns the stored value
and increments the hits counter, whereas a get differing only in
temperature derives a different cache key and (the other key being absent)
is a miss. -/
theorem claim_C7_cache_key_roundtrip {V : Type} (c : LRU V) (now : ℚ)
    (messages : List Msg) (model : String) (value : V) (temperature temp2 : ℚ)
    (max_tokens : Int) (hT : temperature ≠ temp2)
    (habs : ∀ kv ∈ c.entries, kv.1 ≠ hashKey messages model temp2 max_tokens) :
    hashKey messages model temperature max_tokens ≠
      hashKey messages model temp2 max_tokens ∧
    ((c.set now messages model value temperature max_tokens).get now messages model
      temperature max_tokens).1 = some value ∧
    ((c.set now messages model value temperature max_tokens).get now messages model
      temperature max_tokens).2.hits = c.hits + 1 ∧
    ((c.set now messages model value temperature max_tokens).get now messages model
      temp2 max_tokens).1 = none ∧
    ((c.set now messages model value temperature max_tokens).get now messages model
      temp2 max_tokens).2.misses = c.misses + 1 := by
  obtain ⟨L, hshape, hL, hsub⟩ :=
    set_entries_shape c now messages model value temperature max_tokens
  have hkeys : hashKey messages model temperature max_tokens ≠
      hashKey messages model temp2 max_tokens := by
    intro h
    exact hT (congrArg (fun k => k.2.1) h)
  have hcfg := set_preserves_config c now messages model value temperature max_tokens
  have hhit := get_fresh_hit (c.set now messages model value temperature max_tokens)
    now messages model temperature max_tokens L value hshape hL
  have habs2 : ∀ kv ∈ (c.set now messages model value temperature max_tokens).entries,
      kv.1 ≠ hashKey messages model temp2 max_tokens := by
    intro kv hkv
    rw [hshape] at hkv
    rcases List.mem_append.mp hkv with h | h
    · exact habs kv (hsub kv h)
    · have : kv = (hashKey messages model temperature max_tokens,
        (⟨value, now, 0⟩ : CEntry V)) := by simpa using h
      rw [this]
      exact hkeys
  have hmiss := get_absent_miss (c.set now messages model value temperature max_tokens)
    now messages model temp2 max_tokens habs2
  exact ⟨hkeys, hhit.1, by rw [hhit.2, hcfg.2.2.1], hmiss.1, by rw [hmiss.2, hcfg.2.2.2]⟩

/-- C7 witness: a concrete instantiation on the empty cache. -/
theorem claim_C7_cache_key_roundtrip_witness :
    hashKey [⟨"u", "hi"⟩] "m" 1 512 ≠ hashKey [⟨"u", "hi"⟩] "m" (1/2) 512 ∧
    (((⟨100, 3600, [], 0, 0, 0, 0⟩ : LRU String).set 0 [⟨"u", "hi"⟩] "m" "resp" 1 512).get
      0 [⟨"u", "hi"⟩] "m" 1 512).1 = some "resp" ∧
    (((⟨100, 3600, [], 0, 0, 0, 0⟩ : LRU String).set 0 [⟨"u", "hi"⟩] "m" "resp" 1 512).get
      0 [⟨"u", "hi"⟩] "m" 1 512).2.hits = 0 + 1 ∧
    (((⟨100, 3600, [], 0, 0, 0, 0⟩ : LRU String).set 0 [⟨"u", "hi"⟩] "m" "resp" 1 512).get
      0 [⟨"u", "hi"⟩] "m" (1/2) 512).1 = none ∧
    (((⟨100, 3600, [], 0, 0, 0, 0⟩ : LRU String).set 0 [⟨"u", "hi"⟩] "m" "resp" 1 512).get
      0 [⟨"u", "hi"⟩] "m" (1/2) 512).2.misses = 0 + 1 :=
  claim_C7_cache_key_roundtrip (⟨100, 3600, [], 0, 0, 0, 0⟩ : LRU String) 0
    [⟨"u", "hi"⟩] "m" "resp" 1 (1/2) 512 (by norm_num) (by simp)

/-- C8: a get finding an entry strictly older than the TTL returns none,
physically removes the entry, and increments both the miss and expiration
counters; a value whose age exceeds the TTL is never returned. -/
theorem claim_C8_ttl_lazy_expiry {V : Type} (c : LRU V) (now : ℚ)
    (messages : List Msg) (model : String) (temperature : ℚ) (max_tokens : Int) :
    (∀ kv, c.entries.find? (fun x =>
        decide (x.1 = hashKey messages model temperature max_tokens)) = some kv →
      now - kv.2.created_at > (c.ttl_seconds : ℚ) →
      (c.get now messages model temperature max_tokens).1 = none ∧
      (c.get now messages model temperature max_tokens).2.entries =
        c.entries.filter (fun x =>
          decide (x.1 ≠ hashKey messages model temperature max_tokens)) ∧
      (c.get now messages model temperature max_tokens).2.misses = c.misses + 1 ∧
      (c.get now messages model temperature max_tokens).2.expirations =
        c.expirations + 1) ∧
    (∀ v, (c.get now messages model temperature max_tokens).1 = some v →
      ∃ kv, c.entries.find? (fun x =>
          decide (x.1 = hashKey messages model temperature max_tokens)) = some kv ∧
        now - kv.2.created_at ≤ (c.ttl_seconds : ℚ) ∧ v = kv.2.value) := by
  constructor
  · intro kv hfind hexp
    unfold LRU.get
    simp only [hfind, hexp, if_pos hexp]
    exact ⟨rfl, rfl, rfl, rfl⟩
  · intro v hv
    unfold LRU.get at hv
    cases hfind : c.entries.find? (fun x =>
        decide (x.1 = hashKey messages model temperature max_tokens)) with
    | none =>
      simp only [hfind] at hv
      exact Option.noConfusion hv
    | some kv =>
      simp only [hfind] at hv
      by_cases hexp : now - kv.2.created_at > (c.ttl_seconds : ℚ)
      · simp [hexp] at hv
      · simp only [if_neg hexp, Option.some.injEq] at hv
        exact ⟨kv, rfl, not_lt.mp hexp, hv.symm⟩

/-- C8 witness: a concrete expired entry (age 5000 with TTL 3600) is
removed and counted. -/
theorem claim_C8_ttl_lazy_expiry_witness :
    ((⟨100, 3600, [(hashKey [⟨"u", "hi"⟩] "m" 1 512, ⟨"old", 0, 0⟩)], 0, 0, 0, 0⟩ :
      LRU String).get 5000 [⟨"u", "hi"⟩] "m" 1 512).1 = none ∧
    ((⟨100, 3600, [(hashKey [⟨"u", "hi"⟩] "m" 1 512, ⟨"old", 0, 0⟩)], 0, 0, 0, 0⟩ :
      LRU String).get 5000 [⟨"u", "hi"⟩] "m" 1 512).2.entries = [] ∧
    ((⟨100, 3600, [(hashKey [⟨"u", "hi"⟩] "m" 1 512, ⟨"old", 0, 0⟩)], 0, 0, 0, 0⟩ :
      LRU String).get 5000 [⟨"u", "hi"⟩] "m" 1 512).2.misses = 0 + 1 ∧
    ((⟨100, 3600, [(hashKey [⟨"u", "hi"⟩] "m" 1 512, ⟨"old", 0, 0⟩)], 0, 0, 0, 0⟩ :
      LRU String).get 5000 [⟨"u", "hi"⟩] "m" 1 512).2.expirations = 0 + 1 := by
  have h := (claim_C8_ttl_lazy_expiry
    (⟨100, 3600, [(hashKey [⟨"u", "hi"⟩] "m" 1 512, ⟨"old", 0, 0⟩)], 0, 0, 0, 0⟩ :
      LRU String) 5000 [⟨"u", "hi"⟩] "m" 1 512).1
    (hashKey [⟨"u", "hi"⟩] "m" 1 512, ⟨"old", 0, 0⟩) (by simp) (by norm_num)
  exact ⟨h.1, by rw [h.2.1]; simp, h.2.2.1, h.2.2.2⟩

/-- A `get` that finds an unexpired entry returns its value. -/
theorem get_present_hit {V : Type} (c : LRU V) (now : ℚ) (messages : List Msg)
    (model : String) (temperature : ℚ) (max_tokens : Int) (kv : HKey × CEntry V)
    (hfind : c.entries.find? (fun x =>
      decide (x.1 = hashKey messages model temperature max_tokens)) = some kv)
    (httl : ¬ (now - kv.2.created_at > (c.ttl_seconds : ℚ))) :
    (c.get now messages model temperature max_tokens).1 = some kv.2.value := by
  unfold LRU.get
  simp only [hfind, if_neg httl]

/-- C9: on a cache at capacity, a `set` with a new key evicts exactly the
least-recently-used (oldest) entry: the new entry list is the old tail
plus the fresh entry, the eviction counter increments, the size stays at
capacity, a get on the evicted key misses, and a get on any other
previously cached unexpired key still hits. -/
theorem claim_C9_lru_eviction {V : Type} (c : LRU V) (v : V) (now now1 now2 : ℚ)
    (margsN : List Msg) (mN : String) (tN : ℚ) (xN : Int)
    (hcap : c.entries.length = c.max_size) (hpos : 1 ≤ c.max_size)
    (hnodup : (c.entries.map Prod.fst).Nodup)
    (hnew : ∀ kv ∈ c.entries, kv.1 ≠ hashKey margsN mN tN xN) :
    (c.set now margsN mN v tN xN).entries =
      c.entries.tail ++ [(hashKey margsN mN tN xN, ⟨v, now, 0⟩)] ∧
    (c.set now margsN mN v tN xN).evictions = c.evictions + 1 ∧
    (c.set now margsN mN v tN xN).entries.length = c.max_size ∧
    (∀ (margsE : List Msg) (mE : String) (tE : ℚ) (xE : Int) kv0,
      c.entries.head? = some kv0 → hashKey margsE mE tE xE = kv0.1 →
      ((c.set now margsN mN v tN xN).get now1 margsE mE tE xE).1 = none) ∧
    (∀ (margsO : List Msg) (mO : String) (tO : ℚ) (xO : Int) kv,
      c.entries.tail.find? (fun x =>
        decide (x.1 = hashKey margsO mO tO xO)) = some kv →
      ¬ (now2 - kv.2.created_at > (c.ttl_seconds : ℚ)) →
      ((c.set now margsN mN v tN xN).get now2 margsO mO tO xO).1 = some kv.2.value) := by
  have hany : c.entries.any (fun kv => decide (kv.1 = hashKey margsN mN tN xN)) = false := by
    apply List.any_eq_false.mpr
    intro kv hkv
    simp [hnew kv hkv]
  have hge : c.entries.length ≥ c.max_size := le_of_eq hcap.symm
  have hshape : (c.set now margsN mN v tN xN).entries =
      c.entries.tail ++ [(hashKey margsN mN tN xN, ⟨v, now, 0⟩)] := by
    unfold LRU.set
    simp [hany, hge]
  have hevict : (c.set now margsN mN v tN xN).evictions = c.evictions + 1 := by
    unfold LRU.set
    simp [hany, hge]
  have httl : (c.set now margsN mN v tN xN).ttl_seconds = c.ttl_seconds := by
    unfold LRU.set
    simp [hany, hge]
  refine ⟨hshape, hevict, ?_, ?_, ?_⟩
  · rw [hshape]
    rw [List.length_append, List.length_tail]
    simp only [List.length_singleton]
    omega
  · intro margsE mE tE xE kv0 hhead hkeyE
    have hcons : c.entries = kv0 :: c.entries.tail := by
      cases hent : c.entries with
      | nil => rw [hent] at hhead; exact Option.noConfusion hhead
      | cons a l =>
        rw [hent] at hhead
        simp at hhead
        rw [hhead]
        rfl
    have habs : ∀ kv ∈ (c.set now margsN mN v tN xN).entries,
        kv.1 ≠ hashKey margsE mE tE xE := by
      intro kv hkv
      rw [hshape] at hkv
      rcases List.mem_append.mp hkv with h | h
      · have hne : kv.1 ≠ kv0.1 := by
          rw [hcons] at hnodup
          simp only [List.map_cons, List.nodup_cons] at hnodup
          intro heq
          exact hnodup.1 (heq ▸ (List.mem_map.mpr ⟨kv, h, rfl⟩))
        rw [hkeyE]
        exact hne
      · have : kv = (hashKey margsN mN tN xN, (⟨v, now, 0⟩ : CEntry V)) := by simpa using h
        rw [this, hkeyE]
        have hmem0 : kv0 ∈ c.entries := by rw [hcons]; exact List.mem_cons_self _ _
        exact fun heq => hnew kv0 hmem0 heq.symm
    exact (get_absent_miss _ now1 margsE mE tE xE habs).1
  · intro margsO mO tO xO kv hfind hrecent
    have hfind2 : (c.set now margsN mN v tN xN).entries.find? (fun x =>
        decide (x.1 = hashKey margsO mO tO xO)) = some kv := by
      rw [hshape, List.find?_append, hfind]
      rfl
    have hrecent2 : ¬ (now2 - kv.2.created_at >
        ((c.set now margsN mN v tN xN).ttl_seconds : ℚ)) := by
      rw [httl]
      exact hrecent
    exact get_present_hit _ now2 margsO mO tO xO kv hfind2 hrecent2

/-- C9 witness: a capacity-2 cache holding keys for conversations "a" and
"b"; inserting a third conversation "c" evicts exactly the oldest ("a"),
which then misses, while "b" still hits. -/
theorem claim_C9_lru_eviction_witness :
    ((⟨2, 3600, [(hashKey [⟨"u", "a"⟩] "m" 1 100, ⟨"v1", 0, 0⟩),
        (hashKey [⟨"u", "b"⟩] "m" 1 100, ⟨"v2", 0, 0⟩)], 0, 0, 0, 0⟩ :
      LRU String).set 0 [⟨"u", "c"⟩] "m" "v3" 1 100).entries =
      [(hashKey [⟨"u", "b"⟩] "m" 1 100, ⟨"v2", 0, 0⟩),
       (hashKey [⟨"u", "c"⟩] "m" 1 100, ⟨"v3", 0, 0⟩)] ∧
    ((⟨2, 3600, [(hashKey [⟨"u", "a"⟩] "m" 1 100, ⟨"v1", 0, 0⟩),
        (hashKey [⟨"u", "b"⟩] "m" 1 100, ⟨"v2", 0, 0⟩)], 0, 0, 0, 0⟩ :
      LRU String).set 0 [⟨"u", "c"⟩] "m" "v3" 1 100).evictions = 0 + 1 ∧
    (((⟨2, 3600, [(hashKey [⟨"u", "a"⟩] "m" 1 100, ⟨"v1", 0, 0⟩),
        (hashKey [⟨"u", "b"⟩] "m" 1 100, ⟨"v2", 0, 0⟩)], 0, 0, 0, 0⟩ :
      LRU String).set 0 [⟨"u", "c"⟩] "m" "v3" 1 100).get 0 [⟨"u", "a"⟩] "m" 1 100).1 =
      none ∧
    (((⟨2, 3600, [(hashKey [⟨"u", "a"⟩] "m" 1 100, ⟨"v1", 0, 0⟩),
        (hashKey [⟨"u", "b"⟩] "m" 1 100, ⟨"v2", 0, 0⟩)], 0, 0, 0, 0⟩ :
      LRU String).set 0 [⟨"u", "c"⟩] "m" "v3" 1 100).get 0 [⟨"u", "b"⟩] "m" 1 100).1 =
      some "v2" := by
  have h := claim_C9_lru_eviction
    (⟨2, 3600, [(hashKey [⟨"u", "a"⟩] "m" 1 100, ⟨"v1", 0, 0⟩),
      (hashKey [⟨"u", "b"⟩] "m" 1 100, ⟨"v2", 0, 0⟩)], 0, 0, 0, 0⟩ : LRU String)
    "v3" 0 0 0 [⟨"u", "c"⟩] "m" 1 100 rfl (by norm_num) (by decide) (by decide)
  refine ⟨h.1, h.2.1, ?_, ?_⟩
  · exact h.2.2.2.1 [⟨"u", "a"⟩] "m" 1 100
      (hashKey [⟨"u", "a"⟩] "m" 1 100, ⟨"v1", 0, 0⟩) rfl rfl
  · exact h.2.2.2.2 [⟨"u", "b"⟩] "m" 1 100
      (hashKey [⟨"u", "b"⟩] "m" 1 100, ⟨"v2", 0, 0⟩) (by decide) (by norm_num)

/-! ## Helper lemmas: retriever error handling -/

/-- `RAGService.query` always returns a value (never propagates an
exception). -/
theorem ragQuery_total (env : RagEnv) (query_text : String) (n_results : Nat)
    (fm : List (String × String)) :
    ∃ l, ragQuery env query_text n_results fm = Except.ok l := by
  unfold ragQuery
  by_cases hc : env.clientConfigured
  · cases hbody : queryBody env query_text n_results fm with
    | ok r => exact ⟨r, by simp [hc, hbody]⟩
    | error e => exact ⟨[], by simp [hc, hbody]⟩
  · exact ⟨[], by simp [hc]⟩

/-- `RAGService.add_documents` always returns a boolean. -/
theorem addDocuments_total (env : RagEnv) (documents : List String)
    (metadatas : List (List (String × String))) :
    ∃ b, addDocuments env documents metadatas = Except.ok b := by
  unfold addDocuments
  by_cases hc : env.clientConfigured
  · cases hbody : addDocumentsBody env documents metadatas with
    | ok b => exact ⟨b, by simp [hc, hbody]⟩
    | error e => exact ⟨false, by simp [hc, hbody]⟩
  · exact ⟨false, by simp [hc]⟩

/-! ## Claim theorems: retriever error handling -/

/-- C2: `query` never raises: with no configured client it returns the
empty list, with no (or an empty) query embedding it returns the empty
list, and if the try body raises the exception is swallowed into an empty
list; `add_documents` likewise only ever reports a boolean. -/
theorem claim_C2_degrades_gracefully (env : RagEnv) (query_text : String)
    (n_results : Nat) (fm : List (String × String)) (documents : List String)
    (metadatas : List (List (String × String))) :
    (∃ l, ragQuery env query_text n_results fm = Except.ok l) ∧
    (env.clientConfigured = false → ragQuery env query_text n_results fm = Except.ok []) ∧
    (env.getEmbedding = none ∨ env.getEmbedding = some [] →
      ragQuery env query_text n_results fm = Except.ok []) ∧
    (∀ e, queryBody env query_text n_results fm = Except.error e →
      ragQuery env query_text n_results fm = Except.ok []) ∧
    (∃ b, addDocuments env documents metadatas = Except.ok b) := by
  refine ⟨ragQuery_total env query_text n_results fm, ?_, ?_, ?_,
    addDocuments_total env documents metadatas⟩
  · intro hc
    unfold ragQuery
    simp [hc]
  · intro hemb
    have hbody : queryBody env query_text n_results fm = Except.ok [] := by
      unfold queryBody
      rcases hemb with h | h <;> simp [h]
    unfold ragQuery
    by_cases hc : env.clientConfigured <;> simp [hc, hbody]
  · intro e herr
    unfold ragQuery
    by_cases hc : env.clientConfigured <;> simp [hc, herr]

/-- C2 witness: an environment whose backend always raises still yields
`ok []` / `ok false`. -/
theorem claim_C2_degrades_gracefully_witness :
    (∃ l, ragQuery
      ⟨true, some [1], fun _ => Except.error "boom", Except.ok (),
        fun _ _ => Except.error "down", fun _ => Except.error "down", "portuguese",
        fun _ => Except.ok "meta", fun _ => Except.ok "meta"⟩
      "q" 5 [] = Except.ok l) ∧
    ragQuery
      ⟨true, none, fun _ => Except.error "boom", Except.ok (),
        fun _ _ => Except.error "down", fun _ => Except.error "down", "portuguese",
        fun _ => Except.ok "meta", fun _ => Except.ok "meta"⟩
      "q" 5 [] = Except.ok [] ∧
    (∃ b, addDocuments
      ⟨true, some [1], fun _ => Except.error "boom", Except.ok (),
        fun _ _ => Except.error "down", fun _ => Except.error "down", "portuguese",
        fun _ => Except.ok "meta", fun _ => Except.ok "meta"⟩
      ["doc"] [[("k", "v")]] = Except.ok b) := by
  refine ⟨?_, ?_, ?_⟩
  · exact (claim_C2_degrades_gracefully
      ⟨true, some [1], fun _ => Except.error "boom", Except.ok (),
        fun _ _ => Except.error "down", fun _ => Except.error "down", "portuguese",
        fun _ => Except.ok "meta", fun _ => Except.ok "meta"⟩
      "q" 5 [] ["doc"] [[("k", "v")]]).1
  · exact (claim_C2_degrades_gracefully
      ⟨true, none, fun _ => Except.error "boom", Except.ok (),
        fun _ _ => Except.error "down", fun _ => Except.error "down", "portuguese",
        fun _ => Except.ok "meta", fun _ => Except.ok "meta"⟩
      "q" 5 [] ["doc"] [[("k", "v")]]).2.2.1 (Or.inl rfl)
  · exact (claim_C2_degrades_gracefully
      ⟨true, some [1], fun _ => Except.error "boom", Except.ok (),
        fun _ _ => Except.error "down", fun _ => Except.error "down", "portuguese",
        fun _ => Except.ok "meta", fun _ => Except.ok "meta"⟩
      "q" 5 [] ["doc"] [[("k", "v")]]).2.2.2.2

/-! ## Helper lemmas: metadata filter sanitization -/

/-- Unfolding equation of the filter loop on a cons cell. -/
theorem buildFilterGo_cons (k v : String) (rest : List (String × String)) (idx : Nat) :
    buildFilterGo ((k, v) :: rest) idx =
      if isCleanKey k then
        (filterCond k idx :: (buildFilterGo rest (idx + 1)).1,
          v :: (buildFilterGo rest (idx + 1)).2)
      else buildFilterGo rest idx := rfl

/-- Dropped keys contribute nothing: the filter loop gives the same result
on the input as on the input restricted to clean keys. -/
theorem buildFilterGo_filter (fm : List (String × String)) :
    ∀ idx, buildFilterGo fm idx =
      buildFilterGo (fm.filter (fun kv => isCleanKey kv.1)) idx := by
  induction fm with
  | nil => intro idx; rfl
  | cons kv rest ih =>
    intro idx
    obtain ⟨k, v⟩ := kv
    by_cases hk : isCleanKey k
    · rw [List.filter_cons, if_pos (by simpa using hk), buildFilterGo_cons,
        buildFilterGo_cons, if_pos hk, if_pos hk, ih (idx + 1)]
    · rw [List.filter_cons, if_neg (by simpa using hk), buildFilterGo_cons,
        if_neg hk, ih idx]

/-- The parameters produced by the filter loop are exactly the values of
the retained (clean-key) pairs, in order. -/
theorem buildFilterGo_params (fm : List (String × String)) :
    ∀ idx, (buildFilterGo fm idx).2 =
      (fm.filter (fun kv => isCleanKey kv.1)).map Prod.snd := by
  induction fm with
  | nil => intro idx; rfl
  | cons kv rest ih =>
    intro idx
    obtain ⟨k, v⟩ := kv
    by_cases hk : isCleanKey k
    · rw [buildFilterGo_cons, if_pos hk, List.filter_cons, if_pos (by simpa using hk),
        List.map_cons]
      show v :: (buildFilterGo rest (idx + 1)).2 = _
      rw [ih (idx + 1)]
    · rw [buildFilterGo_cons, if_neg hk, List.filter_cons, if_neg (by simpa using hk),
        ih idx]

/-- The clauses produced by the filter loop are the AND conditions of the
retained pairs, numbered consecutively from the starting index. -/
theorem buildFilterGo_clauses (fm : List (String × String)) :
    ∀ idx, (buildFilterGo fm idx).1 =
      ((List.range (fm.filter (fun kv => isCleanKey kv.1)).length).zip
        (fm.filter (fun kv => isCleanKey kv.1))).map
        (fun p => filterCond p.2.1 (idx + p.1)) := by
  induction fm with
  | nil => intro idx; rfl
  | cons kv rest ih =>
    intro idx
    obtain ⟨k, v⟩ := kv
    by_cases hk : isCleanKey k
    · rw [buildFilterGo_cons, if_pos hk, List.filter_cons, if_pos (by simpa using hk)]
      show filterCond k idx :: (buildFilterGo rest (idx + 1)).1 = _
      rw [ih (idx + 1)]
      simp only [List.length_cons, List.range_succ_eq_map, List.zip_cons_cons,
        List.map_cons]
      congr 1
      rw [List.zip_map_left, List.map_map]
      apply List.map_congr_left
      intro p _
      simp only [Function.comp_apply, Prod.map, id]
      congr 1
      omega
    · rw [buildFilterGo_cons, if_neg hk, List.filter_cons, if_neg (by simpa using hk),
        ih idx]

/-- Unfolding equation of `buildFilter`. -/
theorem buildFilter_eq (fm : List (String × String)) :
    buildFilter fm =
      (if (buildFilterGo fm 3).1.isEmpty then ""
        else "AND " ++ String.intercalate " AND " (buildFilterGo fm 3).1,
       (buildFilterGo fm 3).2) := rfl

/-- `queryBody` depends on the filter metadata only through the built
clause/parameter pair. -/
theorem queryBody_congr (env : RagEnv) (query_text : String) (n_results : Nat)
    (fm fm2 : List (String × String)) (h : buildFilter fm = buildFilter fm2) :
    queryBody env query_text n_results fm = queryBody env query_text n_results fm2 := by
  unfold queryBody
  rw [h]

/-! ## Claim theorems: metadata filter sanitization -/

/-- C6: non-identifier filter keys are dropped and contribute nothing
(the built clause and parameters are those of the clean-key restriction,
and the whole query result is unchanged); retained pairs become the ANDed
equality conditions numbered from `$3` with their stringified values as
parameters, the identical clause/parameter pair feeding both legs; and a
dropped key never makes the query fail. -/
theorem claim_C6_filter_sanitization (env : RagEnv) (query_text : String)
    (n_results : Nat) (fm : List (String × String)) :
    buildFilter fm = buildFilter (fm.filter (fun kv => isCleanKey kv.1)) ∧
    (buildFilter fm).2 = (fm.filter (fun kv => isCleanKey kv.1)).map Prod.snd ∧
    (buildFilter fm).1 = specFilterClause (fm.filter (fun kv => isCleanKey kv.1)) ∧
    ragQuery env query_text n_results fm =
      ragQuery env query_text n_results (fm.filter (fun kv => isCleanKey kv.1)) ∧
    (∃ l, ragQuery env query_text n_results fm = Except.ok l) := by
  have hgo := buildFilterGo_filter fm 3
  have hbf : buildFilter fm = buildFilter (fm.filter (fun kv => isCleanKey kv.1)) := by
    rw [buildFilter_eq, buildFilter_eq, hgo]
  refine ⟨hbf, ?_, ?_, ?_, ragQuery_total env query_text n_results fm⟩
  · rw [buildFilter_eq]
    exact buildFilterGo_params fm 3
  · rw [buildFilter_eq]
    show (if (buildFilterGo fm 3).1.isEmpty then ""
        else "AND " ++ String.intercalate " AND " (buildFilterGo fm 3).1) = _
    rw [buildFilterGo_clauses fm 3]
    unfold specFilterClause
    have hlen : ∀ (l : List (String × String)),
        (((List.range l.length).zip l).map
          (fun p => filterCond p.2.1 (3 + p.1))).isEmpty = l.isEmpty := by
      intro l
      cases l with
      | nil => rfl
      | cons a t => simp [List.range_succ_eq_map]
    rw [hlen]
  · unfold ragQuery
    rw [queryBody_congr env query_text n_results fm
      (fm.filter (fun kv => isCleanKey kv.1)) hbf]

/-! ## Helper lemmas: RRF fusion -/

theorem legContribGo_nil (id rank : Nat) : legContribGo id rank [] = 0 := rfl

theorem legContribGo_cons (id rank : Nat) (r : Row) (rs : List Row) :
    legContribGo id rank (r :: rs) =
      (if r.id = id then 1 / (60 + (rank : ℚ) + 1) else 0) +
        legContribGo id (rank + 1) rs := rfl

theorem legContribGo_zero (id : Nat) (rows : List Row)
    (h : id ∉ rows.map Row.id) : ∀ rank, legContribGo id rank rows = 0 := by
  induction rows with
  | nil => intro rank; rfl
  | cons r rs ih =>
    intro rank
    rw [legContribGo_cons]
    have hne : r.id ≠ id := by
      intro heq
      exact h (List.mem_map.mpr ⟨r, List.mem_cons_self _ _, heq⟩)
    rw [if_neg hne, ih (fun hm => h (List.mem_cons_of_mem _ hm)) (rank + 1), add_zero]

/-- Every entry of `addRow scores rank r` either updates an entry of
`scores` with the rank contribution when the ids coincide, or is the
freshly inserted entry for a previously unseen id. -/
theorem addRow_mem (scores : List ScoreEntry) (rank : Nat) (r : Row) :
    ∀ e2 ∈ addRow scores rank r,
      (∃ e0 ∈ scores, e0.id = e2.id ∧
        e2.score = e0.score + (if r.id = e2.id then 1 / (60 + (rank : ℚ) + 1) else 0)) ∨
      (e2.id ∉ idsOf scores ∧ e2.id = r.id ∧
        e2.score = 0 + 1 / (60 + (rank : ℚ) + 1)) := by
  intro e2 he2
  unfold addRow at he2
  by_cases hany : scores.any (fun e => decide (e.id = r.id)) = true
  · rw [if_pos hany] at he2
    obtain ⟨e0, he0, hfe⟩ := List.mem_map.mp he2
    by_cases h0 : e0.id = r.id
    · rw [if_pos h0] at hfe
      left
      refine ⟨e0, he0, ?_, ?_⟩
      · rw [← hfe]
      · rw [← hfe]
        have : r.id = e0.id := h0.symm
        simp [this]
    · rw [if_neg h0] at hfe
      left
      refine ⟨e0, he0, ?_, ?_⟩
      · rw [← hfe]
      · rw [← hfe]
        have : r.id ≠ e0.id := fun h => h0 h.symm
        simp [this]
  · rw [if_neg hany] at he2
    have hall : ∀ x ∈ scores, x.id ≠ r.id := by
      intro x hx
      have := List.any_eq_false.mp (Bool.eq_false_iff.mpr hany) x hx
      simpa using this
    rcases List.mem_append.mp he2 with h | h
    · left
      refine ⟨e2, h, rfl, ?_⟩
      have : r.id ≠ e2.id := fun heq => hall e2 h heq.symm
      simp [this]
    · have he : e2 = ⟨r.id, 0 + 1 / (60 + (rank : ℚ) + 1), r.content⟩ := by simpa using h
      right
      refine ⟨?_, by rw [he], by rw [he]⟩
      rw [he]
      intro hm
      obtain ⟨x, hx, hxid⟩ := List.mem_map.mp hm
      exact hall x hx hxid

/-- `addRow` never removes an id. -/
theorem addRow_ids_subset (scores : List ScoreEntry) (rank : Nat) (r : Row) :
    idsOf scores ⊆ idsOf (addRow scores rank r) := by
  unfold addRow
  by_cases hany : scores.any (fun e => decide (e.id = r.id)) = true
  · rw [if_pos hany]
    intro id hid
    obtain ⟨e, he, heid⟩ := List.mem_map.mp hid
    apply List.mem_map.mpr
    by_cases h0 : e.id = r.id
    · exact ⟨{ e with score := e.score + 1 / (60 + (rank : ℚ) + 1) },
        List.mem_map.mpr ⟨e, he, by simp [h0]⟩, heid⟩
    · exact ⟨e, List.mem_map.mpr ⟨e, he, by simp [h0]⟩, heid⟩
  · rw [if_neg hany]
    intro id hid
    unfold idsOf
    rw [List.map_append]
    exact List.mem_append_left _ hid

/-- After `addRow` the row id is present. -/
theorem addRow_id_mem (scores : List ScoreEntry) (rank : Nat) (r : Row) :
    r.id ∈ idsOf (addRow scores rank r) := by
  unfold addRow
  by_cases hany : scores.any (fun e => decide (e.id = r.id)) = true
  · rw [if_pos hany]
    obtain ⟨e, he, heid⟩ := List.any_eq_true.mp hany
    have heid2 : e.id = r.id := by simpa using heid
    apply List.mem_map.mpr
    by_cases h0 : e.id = r.id
    · exact ⟨{ e with score := e.score + 1 / (60 + (rank : ℚ) + 1) },
        List.mem_map.mpr ⟨e, he, by simp [h0]⟩, heid2⟩
    · exact absurd heid2 h0
  · rw [if_neg hany]
    unfold idsOf
    rw [List.map_append]
    exact List.mem_append_right _ (by simp)

theorem processLegGo_cons (scores : List ScoreEntry) (rank : Nat) (r : Row)
    (rs : List Row) :
    processLegGo scores rank (r :: rs) =
      processLegGo (addRow scores rank r) (rank + 1) rs := rfl

theorem processLegGo_ids_mono (rows : List Row) :
    ∀ (scores : List ScoreEntry) (rank id : Nat), id ∈ idsOf scores →
      id ∈ idsOf (processLegGo scores rank rows) := by
  induction rows with
  | nil => intro scores rank id h; exact h
  | cons r rs ih =>
    intro scores rank id h
    rw [processLegGo_cons]
    exact ih _ _ _ (addRow_ids_subset scores rank r h)

theorem processLegGo_ids_rows (rows : List Row) :
    ∀ (scores : List ScoreEntry) (rank : Nat), ∀ r ∈ rows,
      r.id ∈ idsOf (processLegGo scores rank rows) := by
  induction rows with
  | nil => intro scores rank r h; exact absurd h (List.not_mem_nil r)
  | cons r0 rs ih =>
    intro scores rank r h
    rw [processLegGo_cons]
    rcases List.mem_cons.mp h with h | h
    · rw [h]
      exact processLegGo_ids_mono rs _ _ _ (addRow_id_mem scores rank r0)
    · exact ih _ _ r h

/-- The central accounting lemma: every entry of the processed dictionary
either extends a pre-existing entry of the same id by the contribution of
this leg, or is a new id whose score is exactly this leg contribution. -/
theorem processLegGo_spec (rows : List Row) :
    ∀ (scores : List ScoreEntry) (rank : Nat), ∀ e ∈ processLegGo scores rank rows,
      (∃ e0 ∈ scores, e0.id = e.id ∧
        e.score = e0.score + legContribGo e.id rank rows) ∨
      (e.id ∉ idsOf scores ∧ e.score = legContribGo e.id rank rows) := by
  induction rows with
  | nil =>
    intro scores rank e he
    left
    exact ⟨e, he, rfl, by rw [legContribGo_nil, add_zero]⟩
  | cons r rs ih =>
    intro scores rank e he
    rw [processLegGo_cons] at he
    rcases ih (addRow scores rank r) (rank + 1) e he with ⟨e0', he0', hid', hsc'⟩ | ⟨hnid', hsc'⟩
    · rcases addRow_mem scores rank r e0' he0' with ⟨e0, he0, hid0, hsc0⟩ | ⟨hn0, hid0, hsc0⟩
      · left
        refine ⟨e0, he0, hid0.trans hid', ?_⟩
        rw [legContribGo_cons, hsc', hsc0, hid']
        ring
      · right
        constructor
        · rw [← hid']
          exact hn0
        · rw [legContribGo_cons, hsc', hsc0]
          have hre : r.id = e.id := by rw [← hid', hid0]
          rw [if_pos hre]
          ring
    · right
      constructor
      · intro h
        exact hnid' (addRow_ids_subset scores rank r h)
      · have hne : r.id ≠ e.id := by
          intro heq
          exact hnid' (heq ▸ addRow_id_mem scores rank r)
        rw [legContribGo_cons, if_neg hne, hsc', zero_add]

/-- Scores after the first (vector) leg starting from the empty
dictionary. -/
theorem processLeg_nil_spec (rows : List Row) :
    ∀ e ∈ processLeg [] rows, e.score = legContrib e.id rows := by
  intro e he
  rcases processLegGo_spec rows [] 0 e he with ⟨e0, he0, _, _⟩ | ⟨_, hsc⟩
  · exact absurd he0 (List.not_mem_nil e0)
  · exact hsc

/-- With no duplicate ids in a leg, the occurrence-summed contribution is
the claim formula at the 0-based position of the id. -/
theorem legContribGo_idx (rows : List Row) (hnd : (rows.map Row.id).Nodup) (id : Nat) :
    ∀ rank, legContribGo id rank rows =
      match posIn id rows with
      | some i => 1 / (60 + ((rank + i : Nat) : ℚ) + 1)
      | none => 0 := by
  induction rows with
  | nil => intro rank; rfl
  | cons r rs ih =>
    intro rank
    rw [legContribGo_cons]
    rw [List.map_cons, List.nodup_cons] at hnd
    by_cases hr : r.id = id
    · have hzero : legContribGo id (rank + 1) rs = 0 :=
        legContribGo_zero id rs (hr ▸ hnd.1) (rank + 1)
      rw [if_pos hr, hzero, add_zero]
      simp only [posIn, if_pos hr]
      norm_num
    · rw [if_neg hr, zero_add, ih hnd.2 (rank + 1)]
      simp only [posIn, if_neg hr]
      cases hidx : posIn id rs with
      | none => simp
      | some i =>
        have harith : rank + 1 + i = rank + (i + 1) := by omega
        simp [harith]

theorem legContrib_eq_idx (rows : List Row) (hnd : (rows.map Row.id).Nodup)
    (id : Nat) : legContrib id rows = legContribIdx id rows := by
  unfold legContrib legContribIdx
  rw [legContribGo_idx rows hnd id 0]
  cases posIn id rows with
  | none => rfl
  | some i => simp

theorem mem_insertDesc (e a : ScoreEntry) (l : List ScoreEntry) :
    a ∈ insertDesc e l ↔ a = e ∨ a ∈ l := by
  induction l with
  | nil => simp [insertDesc]
  | cons x xs ih =>
    by_cases h : e.score > x.score
    · simp only [insertDesc, if_pos h, List.mem_cons]
    · simp only [insertDesc, if_neg h, List.mem_cons, ih]
      tauto

theorem pairwise_insertDesc (e : ScoreEntry) (l : List ScoreEntry)
    (h : l.Pairwise (fun a b => b.score ≤ a.score)) :
    (insertDesc e l).Pairwise (fun a b => b.score ≤ a.score) := by
  induction l with
  | nil => simp [insertDesc]
  | cons x xs ih =>
    rw [List.pairwise_cons] at h
    unfold insertDesc
    by_cases hgt : e.score > x.score
    · rw [if_pos hgt]
      rw [List.pairwise_cons]
      constructor
      · intro b hb
        rcases List.mem_cons.mp hb with h1 | h1
        · rw [h1]; exact le_of_lt hgt
        · exact le_of_lt (lt_of_le_of_lt (h.1 b h1) hgt)
      · rw [List.pairwise_cons]
        exact h
    · rw [if_neg hgt]
      rw [List.pairwise_cons]
      constructor
      · intro b hb
        rcases (mem_insertDesc e b xs).mp hb with h1 | h1
        · rw [h1]; exact not_lt.mp hgt
        · exact h.1 b h1
      · exact ih h.2

theorem pairwise_sortScoresDesc (l : List ScoreEntry) :
    (sortScoresDesc l).Pairwise (fun a b => b.score ≤ a.score) := by
  unfold sortScoresDesc
  have hgen : ∀ (l2 acc : List ScoreEntry),
      acc.Pairwise (fun a b => b.score ≤ a.score) →
      (l2.foldl (fun acc2 e => insertDesc e acc2) acc).Pairwise
        (fun a b => b.score ≤ a.score) := by
    intro l2
    induction l2 with
    | nil => intro acc hacc; exact hacc
    | cons x xs ih =>
      intro acc hacc
      exact ih (insertDesc x acc) (pairwise_insertDesc x acc hacc)
  exact hgen l [] List.Pairwise.nil

/-! ## Claim theorems: RRF fusion -/

/-- C1: each entry of the fused score dictionary carries exactly the sum,
over the legs containing its id, of `1 / (60 + rank + 1)` at its 0-based
rank in that leg; the output is the contents of the top `n` entries of the
stable descending sort of those scores; and the worked example of legs
`[X, Y]` and `[Y, Z]` fuses to `[Y, X, Z]`. -/
theorem claim_C1_rrf_fusion (vrows krows : List Row) (n : Nat)
    (hv : (vrows.map Row.id).Nodup) (hk : (krows.map Row.id).Nodup) :
    (∀ e ∈ buildScores vrows krows,
      e.score = legContribIdx e.id vrows + legContribIdx e.id krows) ∧
    (sortScoresDesc (buildScores vrows krows)).Pairwise
      (fun a b => b.score ≤ a.score) ∧
    rrfFuse vrows krows n =
      ((sortScoresDesc (buildScores vrows krows)).take n).map ScoreEntry.content ∧
    (rrfFuse vrows krows n).length ≤ n ∧
    rrfFuse [⟨1, "X"⟩, ⟨2, "Y"⟩] [⟨2, "Y"⟩, ⟨3, "Z"⟩] 3 = ["Y", "X", "Z"] := by
  refine ⟨?_, pairwise_sortScoresDesc _, rfl, ?_, ?_⟩
  · intro e he
    unfold buildScores at he
    rw [← legContrib_eq_idx vrows hv, ← legContrib_eq_idx krows hk]
    rcases processLegGo_spec krows (processLeg [] vrows) 0 e he with
      ⟨e0, he0, hid0, hsc0⟩ | ⟨hnid, hsc⟩
    · rw [hsc0, processLeg_nil_spec vrows e0 he0, hid0]
      rfl
    · have hnotin : e.id ∉ vrows.map Row.id := by
        intro hm
        obtain ⟨r, hr, hrid⟩ := List.mem_map.mp hm
        exact hnid (hrid ▸ processLegGo_ids_rows vrows [] 0 r hr)
      rw [hsc]
      unfold legContrib
      rw [legContribGo_zero e.id vrows hnotin 0, zero_add]
  · unfold rrfFuse
    rw [List.length_map]
    exact List.length_take_le n _
  · simp only [rrfFuse, buildScores, processLeg, processLegGo, addRow]
    all_goals norm_num [sortScoresDesc, insertDesc, List.foldl]

/-- C1 witness: the worked example discharges the no-duplicate
hypotheses. -/
theorem claim_C1_rrf_fusion_witness :
    (∀ e ∈ buildScores [⟨1, "X"⟩, ⟨2, "Y"⟩] [⟨2, "Y"⟩, ⟨3, "Z"⟩],
      e.score = legContribIdx e.id [⟨1, "X"⟩, ⟨2, "Y"⟩] +
        legContribIdx e.id [⟨2, "Y"⟩, ⟨3, "Z"⟩]) ∧
    rrfFuse [⟨1, "X"⟩, ⟨2, "Y"⟩] [⟨2, "Y"⟩, ⟨3, "Z"⟩] 3 = ["Y", "X", "Z"] := by
  have h := claim_C1_rrf_fusion [⟨1, "X"⟩, ⟨2, "Y"⟩] [⟨2, "Y"⟩, ⟨3, "Z"⟩] 3
    (by decide) (by decide)
  exact ⟨h.1, h.2.2.2.2⟩

/-! ## Helper lemmas: legal metadata extractor -/

/-- The four fields of the extractor, unfolded. -/
theorem extract_fields (filename : List Char) :
    (extractLegalMetadata filename).type = detectType (normOf filename) ∧
    (extractLegalMetadata filename).authority = detectAuthority (normOf filename) ∧
    (extractLegalMetadata filename).year = findYear (cleanOf filename) ∧
    (extractLegalMetadata filename).number =
      (match (match kwNumber (normOf filename) with
              | some d => some d
              | none => fallbackNumber (cleanOf filename) (findYear (cleanOf filename))) with
       | some d =>
         if (kwNumber (normOf filename)).isSome || (detectType (normOf filename)).isSome ||
             (detectAuthority (normOf filename)).isSome
         then some (String.mk d) else none
       | none => none) :=
  ⟨rfl, rfl, rfl, rfl⟩

/-! ## Claim theorems: legal metadata extractor -/

/-- C5: the extractor is a total function and populates `number` only when
the digits followed a recognized numbering keyword or a type/authority was
also detected; in particular a bare digit filename yields the empty
mapping. -/
theorem claim_C5_number_guard (filename : List Char) :
    ((extractLegalMetadata filename).number.isSome →
      (kwNumber (normOf filename)).isSome ∨
      (extractLegalMetadata filename).type.isSome ∨
      (extractLegalMetadata filename).authority.isSome) ∧
    extractLegalMetadata "123456.pdf".data = ⟨none, none, none, none⟩ := by
  constructor
  · intro hsome
    obtain ⟨hty, hauth, _, hnum⟩ := extract_fields filename
    rw [hnum] at hsome
    rw [hty, hauth]
    cases hkw : kwNumber (normOf filename) with
    | some d => exact Or.inl (by simp [hkw])
    | none =>
      rw [hkw] at hsome
      cases hfb : fallbackNumber (cleanOf filename) (findYear (cleanOf filename)) with
      | none =>
        rw [hfb] at hsome
        exact absurd hsome (by simp)
      | some d =>
        rw [hfb] at hsome
        simp only [hkw, Option.isSome_none, Bool.false_or] at hsome
        by_cases hcond : ((detectType (normOf filename)).isSome ||
            (detectAuthority (normOf filename)).isSome) = true
        · rcases Bool.or_eq_true_iff.mp hcond with h | h
          · exact Or.inr (Or.inl h)
          · exact Or.inr (Or.inr h)
        · rw [if_neg (by simpa using hcond)] at hsome
          exact absurd hsome (by simp)
  · decide

/-- C5 witness: `lei 8666.docx` has a populated number together with a
detected type, discharging the guard hypothesis. -/
theorem claim_C5_number_guard_witness :
    (extractLegalMetadata "lei 8666.docx".data).number.isSome = true ∧
    ((kwNumber (normOf "lei 8666.docx".data)).isSome ∨
      (extractLegalMetadata "lei 8666.docx".data).type.isSome ∨
      (extractLegalMetadata "lei 8666.docx".data).authority.isSome) :=
  ⟨by decide, (claim_C5_number_guard "lei 8666.docx".data).1 (by decide)⟩

theorem scanFind_nil {α : Type} (p : Option Char → List Char → Option α)
    (prev : Option Char) : scanFind p prev [] = p prev [] := rfl

theorem scanFind_cons {α : Type} (p : Option Char → List Char → Option α)
    (prev : Option Char) (c : Char) (rest : List Char) :
    scanFind p prev (c :: rest) =
      match p prev (c :: rest) with
      | some v => some v
      | none => scanFind p (some c) rest := rfl

theorem prevAt_succ (prev : Option Char) (c : Char) (rest : List Char) (i : Nat) :
    prevAt prev (c :: rest) (i + 1) = prevAt (some c) rest i := by
  cases i with
  | zero => rfl
  | succ j => rfl

/-- The left-to-right scanner is the leftmost position-indexed match: it
returns the value of the position test at the smallest index where it
fires (`findSome?` over the position range). -/
theorem scanFind_eq_findSome {α : Type} (p : Option Char → List Char → Option α) :
    ∀ (s : List Char) (prev : Option Char),
      scanFind p prev s = (List.range (s.length + 1)).findSome?
        (fun i => p (prevAt prev s i) (s.drop i)) := by
  intro s
  induction s with
  | nil =>
    intro prev
    rw [scanFind_nil]
    show _ = (List.range 1).findSome? _
    have hr1 : List.range 1 = [0] := rfl
    rw [hr1, List.findSome?_cons]
    have h0 : p (prevAt prev [] 0) (([] : List Char).drop 0) = p prev [] := rfl
    rw [h0]
    cases p prev [] <;> rfl
  | cons c rest ih =>
    intro prev
    have hrange : List.range ((c :: rest).length + 1) =
        0 :: (List.range (rest.length + 1)).map Nat.succ := by
      rw [List.length_cons, List.range_succ_eq_map]
    rw [scanFind_cons, hrange, List.findSome?_cons]
    have h0 : p (prevAt prev (c :: rest) 0) ((c :: rest).drop 0) = p prev (c :: rest) := rfl
    rw [h0, List.findSome?_map]
    have hcomp : ((fun i => p (prevAt prev (c :: rest) i) ((c :: rest).drop i)) ∘ Nat.succ)
        = fun i => p (prevAt (some c) rest i) (rest.drop i) := by
      funext i
      simp only [Function.comp_apply]
      rw [prevAt_succ]
      rfl
    rw [hcomp, ← ih (some c)]
    cases p prev (c :: rest) <;> rfl

/-- A successful boundary-anchored year match lies in the 19xx/20xx
range. -/
theorem yearAt_bound (prev : Option Char) (s : List Char) (y : Nat)
    (h : yearAt prev s = some y) : 1900 ≤ y ∧ y ≤ 2099 := by
  unfold yearAt at h
  cases s with
  | nil => exact Option.noConfusion h
  | cons a t =>
    cases t with
    | nil => exact Option.noConfusion h
    | cons b t2 =>
      cases t2 with
      | nil => exact Option.noConfusion h
      | cons c t3 =>
        cases t3 with
        | nil => exact Option.noConfusion h
        | cons d rest =>
          simp only [] at h
          by_cases hcond : (bdryOk prev && ((a = '1' && b = '9') || (a = '2' && b = '0')) &&
              c.isDigit && d.isDigit && bdryOk rest.head?) = true
          · rw [if_pos hcond] at h
            have hy : y = yearVal a b c d := (Option.some.injEq _ _).mp h.symm
            simp only [Bool.and_eq_true, Bool.or_eq_true, decide_eq_true_eq] at hcond
            obtain ⟨⟨⟨⟨_, hab⟩, hc⟩, hd⟩, _⟩ := hcond
            have hcd : 48 ≤ c.toNat ∧ c.toNat ≤ 57 := by
              simpa [Char.isDigit, Bool.and_eq_true, decide_eq_true_eq] using hc
            have hdd : 48 ≤ d.toNat ∧ d.toNat ≤ 57 := by
              simpa [Char.isDigit, Bool.and_eq_true, decide_eq_true_eq] using hd
            rcases hab with ⟨ha, hb⟩ | ⟨ha, hb⟩
            · rw [hy, ha, hb]
              unfold yearVal
              have e1 : ('1' : Char).toNat = 49 := rfl
              have e9 : ('9' : Char).toNat = 57 := rfl
              rw [e1, e9]
              omega
            · rw [hy, ha, hb]
              unfold yearVal
              have e2 : ('2' : Char).toNat = 50 := rfl
              have e0 : ('0' : Char).toNat = 48 := rfl
              rw [e2, e0]
              omega
          · rw [if_neg hcond] at h
            exact Option.noConfusion h

/-- A successful scan comes from a successful position test somewhere. -/
theorem scanFind_some_source {α : Type} (p : Option Char → List Char → Option α) :
    ∀ (s : List Char) (prev : Option Char) (v : α),
      scanFind p prev s = some v → ∃ prev2 s2, p prev2 s2 = some v := by
  intro s
  induction s with
  | nil =>
    intro prev v h
    rw [scanFind_nil] at h
    exact ⟨prev, [], h⟩
  | cons c rest ih =>
    intro prev v h
    rw [scanFind_cons] at h
    cases hp : p prev (c :: rest) with
    | some w =>
      rw [hp] at h
      have h2 : some w = some v := h
      exact ⟨prev, c :: rest, hp.trans h2⟩
    | none =>
      rw [hp] at h
      exact ih (some c) v h

/-! ## Claim theorems: year detection (C10) -/

/-- C10 counterexample: `v1999.pdf` contains the 4-digit substring `1999`
matching `19xx`, yet the extractor records no year (the source regex
requires word boundaries and `v` precedes the digits). -/
theorem claim_C10_counterexample :
    containsSub "1999".data "v1999.pdf".data = true ∧
    (extractLegalMetadata "v1999.pdf".data).year = none := by decide

/-- C10 (amended): `year` is the value of the first word-boundary-
delimited `19xx`/`20xx` substring of the lowercased filename (the leftmost
position at which the anchored year test fires), omitted when no such
boundary-delimited substring exists; any recorded year lies in
1900..2099. -/
theorem claim_C10_year_detection_amended (filename : List Char) :
    (extractLegalMetadata filename).year =
      (List.range ((cleanOf filename).length + 1)).findSome?
        (fun i => yearAt (prevAt none (cleanOf filename) i)
          ((cleanOf filename).drop i)) ∧
    (∀ y, (extractLegalMetadata filename).year = some y →
      1900 ≤ y ∧ y ≤ 2099) := by
  have hyear : (extractLegalMetadata filename).year = findYear (cleanOf filename) :=
    (extract_fields filename).2.2.1
  constructor
  · rw [hyear]
    exact scanFind_eq_findSome yearAt (cleanOf filename) none
  · intro y hy
    rw [hyear] at hy
    unfold findYear at hy
    obtain ⟨prev, s, hps⟩ :=
      scanFind_some_source yearAt (cleanOf filename) none y hy
    exact yearAt_bound prev s y hps

/-- C10 witness: `AGU (LC 73 de 1993).docx` records year 1993, in
range. -/
theorem claim_C10_year_detection_amended_witness :
    (extractLegalMetadata "AGU (LC 73 de 1993).docx".data).year = some 1993 ∧
    (1900 ≤ 1993 ∧ 1993 ≤ 2099) :=
  ⟨by decide, (claim_C10_year_detection_amended "AGU (LC 73 de 1993).docx".data).2
    1993 (by decide)⟩

/-! ## Helper lemmas: splitter -/

theorem tokLen_charTok (s : List Char) : tokLen charTok s = s.length := by
  simp [tokLen, charTok]

theorem pyStrip_length_le (s : List Char) : (pyStrip s).length ≤ s.length := by
  unfold pyStrip
  calc ((s.dropWhile Char.isWhitespace).reverse.dropWhile Char.isWhitespace).reverse.length
      = ((s.dropWhile Char.isWhitespace).reverse.dropWhile Char.isWhitespace).length := by
        rw [List.length_reverse]
    _ ≤ (s.dropWhile Char.isWhitespace).reverse.length := (List.dropWhile_sublist _).length_le
    _ = (s.dropWhile Char.isWhitespace).length := by rw [List.length_reverse]
    _ ≤ s.length := (List.dropWhile_sublist _).length_le

theorem dropWhile_eq_self_of_all {p : Char → Bool} (s : List Char)
    (h : ∀ c ∈ s, p c = false) : s.dropWhile p = s := by
  cases s with
  | nil => rfl
  | cons a t =>
    rw [List.dropWhile_cons, h a (List.mem_cons_self a t)]
    simp

theorem pyStrip_no_ws (s : List Char) (h : ∀ c ∈ s, c.isWhitespace = false) :
    pyStrip s = s := by
  unfold pyStrip
  rw [dropWhile_eq_self_of_all s h]
  rw [dropWhile_eq_self_of_all s.reverse (fun c hc => h c (List.mem_reverse.mp hc))]
  exact List.reverse_reverse s

theorem containsSub_head (c : Char) (cs text : List Char)
    (h : containsSub (c :: cs) text = true) : c ∈ text := by
  induction text with
  | nil =>
    rw [show containsSub (c :: cs) [] = (c :: cs).isPrefixOf [] from rfl] at h
    simp [List.isPrefixOf] at h
  | cons t rest ih =>
    rw [show containsSub (c :: cs) (t :: rest) =
      ((c :: cs).isPrefixOf (t :: rest) || containsSub (c :: cs) rest) from rfl] at h
    rcases Bool.or_eq_true_iff.mp h with h1 | h1
    · rw [show (c :: cs).isPrefixOf (t :: rest) = (c == t && cs.isPrefixOf rest) from rfl]
        at h1
      have := (Bool.and_eq_true _ _).mp h1
      have hct : c = t := by simpa using this.1
      rw [hct]
      exact List.mem_cons_self t rest
    · exact List.mem_cons_of_mem t (ih h1)

theorem pickSep_cons (text sep : List Char) (rest : List (List Char)) :
    pickSep text (sep :: rest) =
      if sep.isEmpty then ([], [])
      else if containsSub sep text then (sep, rest)
      else
        match rest with
        | [] => (sep, [])
        | _ :: _ => pickSep text rest := rfl

/-- With none of the four nonempty separators occurring, the separator
selection reaches the empty (character-level) separator. -/
theorem pickSep_none (text : List Char)
    (h1 : containsSub ['\n', '\n'] text = false)
    (h2 : containsSub ['\n'] text = false)
    (h3 : containsSub ['.'] text = false)
    (h4 : containsSub [' '] text = false) :
    pickSep text separators = ([], []) := by
  unfold separators
  rw [pickSep_cons, if_neg (by simp), if_neg (by simp [h1])]
  show pickSep text [['\n'], ['.'], [' '], []] = ([], [])
  rw [pickSep_cons, if_neg (by simp), if_neg (by simp [h2])]
  show pickSep text [['.'], [' '], []] = ([], [])
  rw [pickSep_cons, if_neg (by simp), if_neg (by simp [h3])]
  show pickSep text [[' '], []] = ([], [])
  rw [pickSep_cons, if_neg (by simp), if_neg (by simp [h4])]
  show pickSep text [[]] = ([], [])
  rw [pickSep_cons, if_pos (by simp)]

theorem flatMap_singleton_of {α β : Type} (f : α → List β) (g : α → β) :
    ∀ l : List α, (∀ c ∈ l, f c = [g c]) → l.flatMap f = l.map g := by
  intro l
  induction l with
  | nil => intro _; rfl
  | cons a t ih =>
    intro h
    rw [List.flatMap_cons, List.map_cons, h a (List.mem_cons_self a t),
      ih (fun c hc => h c (List.mem_cons_of_mem a hc))]
    rfl

theorem flatten_map_singleton (l : List Char) :
    (l.map (fun c => [c])).flatten = l := by
  induction l with
  | nil => rfl
  | cons a t ih => simp [ih]

/-- When all the pieces fit into a single budget, the merge loop emits one
chunk: the stripped concatenation of the accumulated and remaining
pieces. -/
theorem mergeGo_small (size overlap : Nat) :
    ∀ (splits cur : List (List Char)) (curLen : Nat),
      curLen = cur.flatten.length →
      curLen + (splits.map List.length).sum ≤ size →
      mergeGo charTok size overlap splits cur curLen =
        (if (pyStrip (cur.flatten ++ splits.flatten)).isEmpty then []
         else [pyStrip (cur.flatten ++ splits.flatten)]) := by
  intro splits
  induction splits with
  | nil =>
    intro cur curLen hlen hsum
    cases cur with
    | nil => rfl
    | cons a t =>
      show (if (pyStrip (a :: t).flatten).isEmpty then []
        else [pyStrip (a :: t).flatten]) = _
      rw [List.flatten_nil, List.append_nil]
  | cons s rest ih =>
    intro cur curLen hlen hsum
    have hl : tokLen charTok s = s.length := tokLen_charTok s
    have hguard : ¬ (curLen + tokLen charTok s > size) := by
      rw [hl]
      rw [List.map_cons, List.sum_cons] at hsum
      omega
    show (if curLen + tokLen charTok s > size then _ else
      mergeGo charTok size overlap rest (cur ++ [s]) (curLen + tokLen charTok s)) = _
    rw [if_neg hguard]
    rw [ih (cur ++ [s]) (curLen + tokLen charTok s)
      (by rw [hl, hlen, List.flatten_append]; simp)
      (by rw [hl]; rw [List.map_cons, List.sum_cons] at hsum; omega)]
    rw [List.flatten_append, List.flatten_cons]
    simp [List.append_assoc]

/-- Bound for the merge loop: if every incoming piece is at most `M`
characters and the accumulator is within `max size (overlap + M)`, every
emitted chunk is within `max size (overlap + M)`. -/
theorem mergeGo_bound (size overlap M : Nat) :
    ∀ (splits cur : List (List Char)) (curLen : Nat),
      (∀ s ∈ splits, s.length ≤ M) →
      curLen = cur.flatten.length →
      curLen ≤ max size (overlap + M) →
      ∀ c ∈ mergeGo charTok size overlap splits cur curLen,
        c.length ≤ max size (overlap + M) := by
  intro splits
  induction splits with
  | nil =>
    intro cur curLen hM hlen hcur c hc
    cases cur with
    | nil => exact absurd hc (List.not_mem_nil c)
    | cons a t =>
      revert hc
      show c ∈ (if (pyStrip (a :: t).flatten).isEmpty then []
        else [pyStrip (a :: t).flatten]) → _
      by_cases hemp : (pyStrip (a :: t).flatten).isEmpty = true
      · rw [if_pos hemp]
        intro hc
        exact absurd hc (List.not_mem_nil c)
      · rw [if_neg hemp]
        intro hc
        have hceq : c = pyStrip (a :: t).flatten := by simpa using hc
        rw [hceq]
        calc (pyStrip (a :: t).flatten).length ≤ (a :: t).flatten.length :=
            pyStrip_length_le _
          _ = curLen := hlen.symm
          _ ≤ max size (overlap + M) := hcur
  | cons s rest ih =>
    intro cur curLen hM hlen hcur c hc
    have hMrest : ∀ s2 ∈ rest, s2.length ≤ M :=
      fun s2 h2 => hM s2 (List.mem_cons_of_mem s h2)
    have hsM : s.length ≤ M := hM s (List.mem_cons_self s rest)
    have hl : tokLen charTok s = s.length := tokLen_charTok s
    have hMB : M ≤ max size (overlap + M) :=
      le_trans (Nat.le_add_left M overlap) (le_max_right _ _)
    revert hc
    show c ∈ (if curLen + tokLen charTok s > size then _ else _) → _
    by_cases hguard : curLen + tokLen charTok s > size
    · rw [if_pos hguard]
      cases cur with
      | nil =>
        intro hc
        exact ih [s] (tokLen charTok s) hMrest (by rw [hl]; simp)
          (by rw [hl]; exact le_trans hsM hMB) c hc
      | cons a t =>
        intro hc
        revert hc
        by_cases hemp : (pyStrip (a :: t).flatten).isEmpty = true
        · rw [if_pos hemp]
          intro hc
          exact ih [s] (tokLen charTok s) hMrest (by rw [hl]; simp)
            (by rw [hl]; exact le_trans hsM hMB) c hc
        · rw [if_neg hemp]
          have hjoin : (pyStrip (a :: t).flatten).length ≤ max size (overlap + M) :=
            le_trans (le_trans (pyStrip_length_le _) (le_of_eq hlen.symm)) hcur
          by_cases hov : 0 < overlap ∧ overlap < (pyStrip (a :: t).flatten).length
          · rw [if_pos hov]
            intro hc
            rcases List.mem_cons.mp hc with hceq | hc2
            · rw [hceq]
              exact hjoin
            · have hovlen : ((pyStrip (a :: t).flatten).drop
                  ((pyStrip (a :: t).flatten).length - overlap)).length = overlap := by
                rw [List.length_drop]
                omega
              refine ih _ _ hMrest ?_ ?_ c hc2
              · rw [hl, tokLen_charTok]
                simp
              · rw [hl, tokLen_charTok, hovlen]
                calc overlap + s.length ≤ overlap + M := by omega
                  _ ≤ max size (overlap + M) := le_max_right _ _
          · rw [if_neg hov]
            intro hc
            rcases List.mem_cons.mp hc with hceq | hc2
            · rw [hceq]
              exact hjoin
            · exact ih [s] (tokLen charTok s) hMrest (by rw [hl]; simp)
                (by rw [hl]; exact le_trans hsM hMB) c hc2
    · rw [if_neg hguard]
      intro hc
      refine ih (cur ++ [s]) (curLen + tokLen charTok s) hMrest ?_ ?_ c hc
      · rw [hl, hlen, List.flatten_append]
        simp
      · rw [hl]
        calc curLen + s.length ≤ size := by omega
          _ ≤ max size (overlap + M) := le_max_left _ _

theorem forceSplitGo_bound (size step : Nat) :
    ∀ (fuel : Nat) (ts : List Nat),
      ∀ c ∈ forceSplitGo charTok size step fuel ts, c.length ≤ size := by
  intro fuel
  induction fuel with
  | zero =>
    intro ts c hc
    cases ts with
    | nil => exact absurd hc (List.not_mem_nil c)
    | cons t ts2 => exact absurd hc (List.not_mem_nil c)
  | succ f ih =>
    intro ts c hc
    cases ts with
    | nil => exact absurd hc (List.not_mem_nil c)
    | cons t ts2 =>
      rcases List.mem_cons.mp hc with hceq | hc2
      · rw [hceq]
        show ((charTok.decode ((t :: ts2).take size))).length ≤ size
        unfold charTok
        rw [List.length_map]
        exact le_trans (le_of_eq (List.length_take _ _)) (min_le_left _ _)
      · exact ih ((t :: ts2).drop step) c hc2

theorem forceSplit_bound (size overlap : Nat) (s : List Char) :
    ∀ c ∈ forceSplit charTok size overlap s, c.length ≤ size := by
  intro c hc
  exact forceSplitGo_bound size (size - overlap) _ _ c hc

/-- The recursion-depth bound: with `fuel` remaining separator levels,
every produced chunk is within `size + fuel * overlap` characters. -/
theorem splitTextRecFuel_bound (size overlap : Nat) :
    ∀ (fuel : Nat) (seps : List (List Char)) (text : List Char),
      ∀ c ∈ splitTextRecFuel charTok size overlap fuel seps text,
        c.length ≤ size + fuel * overlap := by
  intro fuel
  induction fuel with
  | zero =>
    intro seps text c hc
    exact absurd hc (List.not_mem_nil c)
  | succ f ih =>
    intro seps text c hc
    have hM : ∀ s ∈ (let pick := pickSep text seps
        let separator := pick.1
        let newSeps := pick.2
        let splits := if separator.isEmpty then text.map (fun c => [c])
          else splitOnSep separator text
        splits.flatMap (fun s =>
          if isBlank s then []
          else
            let s2 := if separator.isEmpty then s else s ++ separator
            if tokLen charTok s2 < size then [s2]
            else if !newSeps.isEmpty then
              splitTextRecFuel charTok size overlap f newSeps s2
            else forceSplit charTok size overlap s2)),
        s.length ≤ size + f * overlap := by
      intro s hs
      simp only [List.mem_flatMap] at hs
      obtain ⟨x, _, hsx⟩ := hs
      by_cases hb : isBlank x = true
      · rw [if_pos hb] at hsx
        exact absurd hsx (List.not_mem_nil s)
      · rw [if_neg hb] at hsx
        set s2 := if (pickSep text seps).1.isEmpty then x else x ++ (pickSep text seps).1
          with hs2
        by_cases hsmall : tokLen charTok s2 < size
        · rw [if_pos hsmall] at hsx
          have : s = s2 := by simpa using hsx
          rw [this]
          rw [tokLen_charTok] at hsmall
          omega
        · rw [if_neg hsmall] at hsx
          by_cases hnew : (!(pickSep text seps).2.isEmpty) = true
          · rw [if_pos hnew] at hsx
            exact ih (pickSep text seps).2 s2 s hsx
          · rw [if_neg hnew] at hsx
            have := forceSplit_bound size overlap s2 s hsx
            omega
    have hres := mergeGo_bound size overlap (size + f * overlap) _ [] 0 hM rfl
      (Nat.zero_le _) c hc
    have hmax : max size (overlap + (size + f * overlap)) = size + (f + 1) * overlap := by
      have : size ≤ overlap + (size + f * overlap) := by omega
      rw [max_eq_right this]
      ring
    rw [hmax] at hres
    exact hres

/-! ## Claim theorems: splitter -/

/-- C3 counterexample: with `chunk_size = 10`, `chunk_overlap = 5` and the
character tokenizer, the text `aaaaaaa bbbbbbbb ccccccc` splits into three
chunks whose middle one (neither final nor a forced token window — no
forced split occurs, all pieces are under budget) has 13 > 10 tokens: the
character-level overlap seeding pushes a merged chunk over the budget. -/
theorem claim_C3_counterexample :
    splitText charTok 10 5 "aaaaaaa bbbbbbbb ccccccc".data =
      ["aaaaaaa".data, "aaaaabbbbbbbb".data, "bbbbbccccccc".data] ∧
    tokLen charTok "aaaaabbbbbbbb".data = 13 := by
  constructor
  · decide
  · decide

/-- C3 (amended): every chunk produced by `split_text` has token length at
most `chunk_size + 5 * chunk_overlap` (one overlap-seed allowance per
separator level); chunks seeded with the character-level overlap of the
previous chunk may exceed `chunk_size` itself. -/
theorem claim_C3_token_budget_amended (size overlap : Nat) (text : List Char) :
    ∀ c ∈ splitText charTok size overlap text,
      tokLen charTok c ≤ size + 5 * overlap := by
  intro c hc
  rw [tokLen_charTok]
  have h := splitTextRecFuel_bound size overlap separators.length separators text c hc
  simpa using h

/-- C3 amended witness: the over-budget middle chunk of the counterexample
still satisfies the amended bound. -/
theorem claim_C3_token_budget_amended_witness :
    tokLen charTok "aaaaabbbbbbbb".data ≤ 10 + 5 * 5 :=
  claim_C3_token_budget_amended 10 5 "aaaaaaa bbbbbbbb ccccccc".data
    "aaaaabbbbbbbb".data (by decide)

theorem sum_map_length_singleton (l : List Char) :
    ((l.map (fun c => [c])).map List.length).sum = l.length := by
  induction l with
  | nil => rfl
  | cons a t ih =>
    rw [List.map_cons, List.map_cons, List.sum_cons, ih, List.length_cons]
    show 1 + t.length = t.length + 1
    omega

/-- One unfolding step of the splitter recursion. -/
theorem splitTextRecFuel_succ (tok : Tok) (size overlap fuel : Nat)
    (seps : List (List Char)) (text : List Char) :
    splitTextRecFuel tok size overlap (fuel + 1) seps text =
      mergeSplits tok size overlap
        ((if (pickSep text seps).1.isEmpty then text.map (fun c => [c])
          else splitOnSep (pickSep text seps).1 text).flatMap (fun s =>
          if isBlank s then []
          else
            if tokLen tok (if (pickSep text seps).1.isEmpty then s
                else s ++ (pickSep text seps).1) < size then
              [if (pickSep text seps).1.isEmpty then s else s ++ (pickSep text seps).1]
            else if !(pickSep text seps).2.isEmpty then
              splitTextRecFuel tok size overlap fuel (pickSep text seps).2
                (if (pickSep text seps).1.isEmpty then s else s ++ (pickSep text seps).1)
            else forceSplit tok size overlap
              (if (pickSep text seps).1.isEmpty then s else s ++ (pickSep text seps).1))) :=
  rfl

/-- C4 counterexample: `a  b` (double space) has 4 < 10 tokens and is
already trimmed, yet `split_text` returns `a b`: the whitespace-only piece
between the two spaces is dropped and the separator re-attachment
collapses the double space, so the single chunk differs from the trimmed
input. -/
theorem claim_C4_counterexample :
    tokLen charTok "a  b".data = 4 ∧
    (4 : Nat) < 10 ∧
    pyStrip "a  b".data = "a  b".data ∧
    splitText charTok 10 0 "a  b".data = ["a b".data] ∧
    "a b".data ≠ "a  b".data := by
  refine ⟨by decide, by decide, by decide, by decide, by decide⟩

/-- C4 (amended): a nonempty text containing no separator occurrence and
no whitespace (a single word without periods), with token length under
`chunk_size`, yields exactly one chunk equal to the text itself (its own
trim). -/
theorem claim_C4_small_text_amended (size overlap : Nat) (text : List Char)
    (hne : text ≠ [])
    (hch : ∀ c ∈ text, c.isWhitespace = false ∧ c ≠ '.')
    (hlen : tokLen charTok text < size) :
    splitText charTok size overlap text = [text] := by
  have hws : ∀ c ∈ text, c.isWhitespace = false := fun c hc => (hch c hc).1
  have h1 : containsSub ['\n', '\n'] text = false := by
    cases hcs : containsSub ['\n', '\n'] text with
    | false => rfl
    | true =>
      exact absurd (hws '\n' (containsSub_head '\n' ['\n'] text hcs)) (by decide)
  have h2 : containsSub ['\n'] text = false := by
    cases hcs : containsSub ['\n'] text with
    | false => rfl
    | true =>
      exact absurd (hws '\n' (containsSub_head '\n' [] text hcs)) (by decide)
  have h3 : containsSub ['.'] text = false := by
    cases hcs : containsSub ['.'] text with
    | false => rfl
    | true =>
      exact absurd ((hch '.' (containsSub_head '.' [] text hcs)).2) (by simp)
  have h4 : containsSub [' '] text = false := by
    cases hcs : containsSub [' '] text with
    | false => rfl
    | true =>
      exact absurd (hws ' ' (containsSub_head ' ' [] text hcs)) (by decide)
  have hpick := pickSep_none text h1 h2 h3 h4
  have hlen2 : text.length < size := by rwa [tokLen_charTok] at hlen
  have hpos : 0 < text.length := List.length_pos.mpr hne
  show splitTextRecFuel charTok size overlap (4 + 1) separators text = [text]
  rw [splitTextRecFuel_succ, hpick]
  simp only [List.isEmpty_nil, Bool.not_true, if_true, Bool.false_eq_true, if_false]
  have hflat : (text.map (fun c => [c])).flatMap (fun s =>
      if isBlank s = true then []
      else
        if tokLen charTok s < size then [s]
        else forceSplit charTok size overlap s) = (text.map (fun c => [c])).map id := by
    apply flatMap_singleton_of
    intro s hs
    obtain ⟨ch, hchm, hse⟩ := List.mem_map.mp hs
    have hblank : isBlank s = false := by
      rw [← hse]
      unfold isBlank
      rw [pyStrip_no_ws [ch] (by
        intro c2 hc2
        have : c2 = ch := by simpa using hc2
        rw [this]
        exact hws ch hchm)]
      rfl
    have hsmall : tokLen charTok s < size := by
      rw [← hse, tokLen_charTok]
      show 1 < size
      omega
    rw [hblank]
    rw [if_neg (by simp), if_pos hsmall]
    rfl
  rw [hflat, List.map_id]
  unfold mergeSplits
  rw [mergeGo_small size overlap (text.map (fun c => [c])) [] 0 rfl
    (by rw [sum_map_length_singleton]; omega)]
  have hstrip : pyStrip (([] : List (List Char)).flatten ++
      (text.map (fun c => [c])).flatten) = text := by
    rw [List.flatten_nil, List.nil_append, flatten_map_singleton]
    exact pyStrip_no_ws text hws
  rw [hstrip, if_neg (by simp [List.isEmpty_iff, hne])]

/-- C4 amended witness: the separator-free word `abc` under budget 4 comes
back as the single chunk `abc`. -/
theorem claim_C4_small_text_amended_witness :
    splitText charTok 4 0 "abc".data = ["abc".data] :=
  claim_C4_small_text_amended 4 0 "abc".data (by decide) (by decide) (by decide)

end Sherlock
